import Mathlib

/-!
Verification of the nested filter-configuration engine of the
`earthengine_imagery_downloader` repository.

The development shallowly embeds the Python source:

* `utils.flatten_nested_imagery_filters`, `utils.get_date_range_overlap`,
  `utils.genMosaickingFunction`, `utils.doMosaic`;
* `eeImageryInterface.__init__` (configuration validation and
  `_loadImagery`), `eeImageryInterface.getImagery` (season and date-query
  handling, nested-key descent, `apply_processing`) and
  `eeImageryInterface._parse_date_query`.

Modelling conventions:

* Python `datetime` values are modelled as naturals ordered
  chronologically, with `strptime`/`strftime` conversions (which are
  inverse to each other for a fixed format) elided; Earth Engine date
  arithmetic is carried out in minutes (`hour` = 60, `day` = 1440,
  `week` = 10080).
* Python dictionaries are modelled as association lists in insertion
  order; dictionary keys at one level are distinct, which appears as a
  `Nodup` hypothesis where it matters.
* Earth Engine server-side objects are external collaborators.  Where a
  claim depends only on which catalog operations were issued they are
  modelled symbolically (`EColl`); where a claim depends on mosaicking
  semantics an image collection is realized as a finite list of images
  carrying their `system:time_start` property.
* fallible Python code (a `raise` or a failed `assert`) is modelled with
  `Except String`.
-/

/-! ## FilterTree flattener (`utils.flatten_nested_imagery_filters`) -/

/-- A FilterSpec from `config/collection_filters.py`: a dictionary with a
`type` naming an `ee.Filter` attribute and a list of positional `args`. -/
structure FilterSpec where
  type : String
  args : List String
  deriving DecidableEq

/-- A nested imagery-filter configuration dictionary (GroupConfig).
`node cs fs` models a Python dict whose ordinary group keys are `cs` (in
insertion order, each mapping to a sub-dictionary) and which contains the
reserved key `"filters"` exactly when `fs = some l` (in which case
`"filters"` maps to the list `l`). -/
inductive FDict where
  | node : List (String × FDict) → Option (List FilterSpec) → FDict

/-- A flattened entry: a dict `{nested_keys, filters}`.  The Python
sentinel `None` appended to a truncated path is modelled by
`Option.none`, so a path is a `List (Option String)`. -/
structure FlatEntry where
  nested_keys : List (Option String)
  filters : List FilterSpec
  deriving DecidableEq

mutual

/-- Shallow embedding of `utils.flatten_nested_imagery_filters`.
The reserved key is checked first (base case), then the recursion limit
(`max_depth < 1` emits the degenerate entry with a `None` sentinel), and
otherwise the function recurses into every child with the child key
appended and `max_depth - 1`, concatenating the returned lists in order.
`max_depth` is an unbounded Python `int`, hence `Int`. -/
def flatten_nested_imagery_filters : FDict → List (Option String) → Int → List FlatEntry
  | .node cs fs, nested_keys, max_depth =>
    match fs with
    | some fl => [⟨nested_keys, fl⟩]
    | none =>
      if max_depth < 1 then [⟨nested_keys ++ [none], []⟩]
      else flattenChildren cs nested_keys max_depth

/-- The `for sub_key, sub_dict in filter_dict.items()` loop of
`flatten_nested_imagery_filters`, appending every child's entries. -/
def flattenChildren : List (String × FDict) → List (Option String) → Int → List FlatEntry
  | [], _, _ => []
  | (k, sub) :: rest, nested_keys, max_depth =>
    flatten_nested_imagery_filters sub (nested_keys ++ [some k]) (max_depth - 1) ++
      flattenChildren rest nested_keys max_depth

end

mutual

/-- The leaf entries of a configuration as the specification describes
them: one `(path, filter-set)` pair per reachable leaf FilterSet, in
depth-first order.  A node carrying the reserved key is a leaf. -/
def leafEntries : FDict → List (List String × List FilterSpec)
  | .node _ (some fl) => [([], fl)]
  | .node cs none => leafChildren cs

/-- Leaf entries of a list of children, each child key consed onto the
paths of its leaves. -/
def leafChildren : List (String × FDict) → List (List String × List FilterSpec)
  | [] => []
  | (k, sub) :: rest =>
    (leafEntries sub).map (fun e => (k :: e.1, e.2)) ++ leafChildren rest

end

mutual

/-- Nesting depth of a configuration: how many recursion steps
`flatten_nested_imagery_filters` needs before every branch reaches a
`filters` key. -/
def fdepth : FDict → Nat
  | .node _ (some _) => 0
  | .node cs none => fdepthChildren cs + 1

/-- Maximum `fdepth` over a list of children. -/
def fdepthChildren : List (String × FDict) → Nat
  | [] => 0
  | (_, sub) :: rest => max (fdepth sub) (fdepthChildren rest)

end

mutual

/-- Well-formedness of a configuration dictionary: group keys are
distinct at every level (guaranteed in the source because levels are
Python dicts) and no group key is literally the reserved key
`"filters"` (so the `Option` field of `FDict.node` is an accurate model
of the membership test `'filters' in filter_dict`). -/
def wfFDict : FDict → Bool
  | .node cs _ =>
    decide (cs.map Prod.fst).Nodup &&
      (cs.map Prod.fst).all (fun k => !(k == "filters")) && wfChildren cs

/-- All children well-formed. -/
def wfChildren : List (String × FDict) → Bool
  | [] => true
  | (_, sub) :: rest => wfFDict sub && wfChildren rest

end

example :
    flatten_nested_imagery_filters
      (.node [("EW", .node [("HH-HV", .node [] (some [⟨"eq", ["instrumentMode", "EW"]⟩]))] none)] none)
      [] 10 =
    [⟨[some "EW", some "HH-HV"], [⟨"eq", ["instrumentMode", "EW"]⟩]⟩] := by
  decide

example :
    flatten_nested_imagery_filters (.node [("a", .node [] none)] none) [] 1 =
    [⟨[some "a", none], []⟩] := by
  decide

deriving instance DecidableEq for Except

/-! ## Interval matcher (`utils.get_date_range_overlap`,
`eeImageryInterface._parse_date_query`) -/

/-- Shallow embedding of `utils.get_date_range_overlap`: clip two ranges
to their intersection, `None` when they do not meet.  Dates are naturals
ordered chronologically. -/
def get_date_range_overlap (range1_start range1_end range2_start range2_end : Nat) :
    Option (Nat × Nat) :=
  let overlap_start := max range1_start range2_start
  let overlap_end := min range1_end range2_end
  if overlap_start > overlap_end then none
  else some (overlap_start, overlap_end)

/-- One entry of `imagery_filters`: a named season with its configured
`date_start` and `date_end`. -/
structure SeasonRange where
  name : String
  date_start : Nat
  date_end : Nat
  deriving DecidableEq

/-- Shallow embedding of `eeImageryInterface._parse_date_query`: iterate
the configured seasons in order, compute the overlap with the query
range, and return the first season with a non-empty overlap together
with the clipped bounds; raise (`.error`) when no season overlaps.
`strptime`/`strftime` round-trips are elided (dates are naturals). -/
def parse_date_query : List SeasonRange → Nat → Nat → Except String (String × Nat × Nat)
  | [], _, _ =>
    .error "date_query did not match date range for any seasons configured."
  | szn :: rest, start_date, end_date =>
    match get_date_range_overlap start_date end_date szn.date_start szn.date_end with
    | none => parse_date_query rest start_date end_date
    | some overlap_dates => .ok (szn.name, overlap_dates)

example :
    parse_date_query [⟨"2022", 20220101, 20220331⟩, ⟨"B", 20220301, 20220630⟩]
      20220315 20220320 = .ok ("2022", 20220315, 20220320) := by decide

example :
    parse_date_query [⟨"2022", 20220101, 20220331⟩] 20210101 20210102 =
      .error "date_query did not match date range for any seasons configured." := by decide

/-! ## Mosaicking (`utils.genMosaickingFunction`, `utils.doMosaic`) -/

/-- An Earth Engine image as the mosaicking code observes it: its
`system:time_start` timestamp (in minutes), its `resolution_meters`
property and its band names. -/
structure Image where
  time : Nat
  resolution_meters : Nat
  bands : List String
  deriving DecidableEq

/-- A composite produced by `tiles_in_window.mosaic()`: it is determined
by the tiles drawn (in collection order, later on top), and the code
sets its `system:time_start` and `resolution_meters` from the first tile
of the window and clips it to `roi`. -/
structure MosaicImage where
  tiles : List Image
  time_start : Nat
  resolution_meters : Nat
  region : String
  deriving DecidableEq

/-- Ordering of images by `system:time_start`, as used by
`image_collection.sort('system:time_start')`. -/
def timeLE (a b : Image) : Prop := a.time ≤ b.time

instance : DecidableRel timeLE := fun a b => Nat.decLe a.time b.time

instance : IsTotal Image timeLE := ⟨fun a b => Nat.le_total a.time b.time⟩

instance : IsTrans Image timeLE := ⟨fun _ _ _ h1 h2 => Nat.le_trans h1 h2⟩

/-- The collection sorted ascending by `system:time_start`. -/
def sortColl (image_collection : List Image) : List Image :=
  List.insertionSort timeLE image_collection

/-- `sorted_collection.filterDate(datetime, datetime.advance(1, w))`:
the images of the (sorted) collection whose timestamp lies in the
half-open window `[datetime, datetime + u)`. -/
def windowImages (sorted_collection : List Image) (datetime u : Nat) : List Image :=
  sorted_collection.filter fun img =>
    decide (datetime ≤ img.time) && decide (img.time < datetime + u)

/-- The supported mosaic windows of `utils.genMosaickingFunction` and
`utils.doMosaic`. -/
def supported_mosaic_windows : List String := ["hour", "day", "week"]

/-- Window length in minutes.  Only reached for supported windows. -/
def unitMinutes : String → Nat
  | "hour" => 60
  | "day" => 1440
  | "week" => 10080
  | _ => 0

/-- Shallow embedding of `utils.genMosaickingFunction`: validate the
window, sort the collection by timestamp, and return the iterator body
`mosaicCollection(datetime, image_list)` which appends the window's
composite to the accumulator when the window holds at least one tile and
returns the accumulator unchanged otherwise. -/
def genMosaickingFunction (image_collection : List Image) (roi : String)
    (mosaic_window : String) :
    Except String (Nat → List MosaicImage → List MosaicImage) :=
  if mosaic_window ∈ supported_mosaic_windows then
    let sorted_collection := sortColl image_collection
    .ok fun datetime image_list =>
      match windowImages sorted_collection datetime (unitMinutes mosaic_window) with
      | [] => image_list
      | t0 :: rest => image_list ++ [⟨t0 :: rest, t0.time, t0.resolution_meters, roi⟩]
  else
    .error ("mosaic_window must be in ['hour', 'day', 'week']; received " ++ mosaic_window)

/-- The window start datetimes `hourly_datetime_list` of `utils.doMosaic`:
`ee.List.sequence(0, endDate.difference(startDate, w))` maps to
`startDate.advance(i, w)` for `i = 0 .. floor((endDate-startDate)/u)`. -/
def windowStarts (startDate endDate u : Nat) : List Nat :=
  (List.range ((endDate - startDate) / u + 1)).map fun i => startDate + i * u

/-- Shallow embedding of `utils.doMosaic`: validate the window, build the
window-start list, and iterate the mosaicking function over it starting
from the empty list. -/
def doMosaic (collection : List Image) (startDate endDate : Nat) (roi : String)
    (mosaic_window : String) : Except String (List MosaicImage) :=
  if mosaic_window ∈ supported_mosaic_windows then
    let hourly_datetime_list := windowStarts startDate endDate (unitMinutes mosaic_window)
    match genMosaickingFunction collection roi mosaic_window with
    | .error e => .error e
    | .ok mosaicking_func =>
      .ok (hourly_datetime_list.foldl (fun image_list datetime => mosaicking_func datetime image_list) [])
  else
    .error ("mosaic_window must be in ['hour', 'day', 'week']; received " ++ mosaic_window)

/-- The composite a single window contributes, if any: the window's
tiles drawn from the sorted collection, tagged with the first (earliest)
tile's timestamp and resolution and clipped to `roi`. -/
def windowMosaic (collection : List Image) (roi : String) (u datetime : Nat) :
    Option MosaicImage :=
  match windowImages (sortColl collection) datetime u with
  | [] => none
  | t0 :: rest => some ⟨t0 :: rest, t0.time, t0.resolution_meters, roi⟩

example :
    doMosaic [⟨30, 10, ["HH"]⟩] 0 59 "roi" "hour" =
      .ok [⟨[⟨30, 10, ["HH"]⟩], 30, 10, "roi"⟩] := by decide

example :
    (doMosaic [] 0 59 "roi" "month").isOk = false := by decide

/-! ## Claim C1: first-match season resolution with clipped bounds -/

/-- C1: for every query date range and ordered season list,
`_parse_date_query` iterates the seasons in configured order, computes
`overlap_start = max(query_start, season.date_start)` and
`overlap_end = min(query_end, season.date_end)` per season, skips every
season whose overlap is empty, and returns for the first season with a
non-empty overlap its name together with the clipped overlap bounds;
all later seasons (`post`) are ignored. -/
theorem parse_date_query_first_match
    (pre post : List SeasonRange) (szn : SeasonRange) (query_start query_end : Nat)
    (hpre : ∀ s ∈ pre, min query_end s.date_end < max query_start s.date_start)
    (hov : max query_start szn.date_start ≤ min query_end szn.date_end) :
    parse_date_query (pre ++ szn :: post) query_start query_end =
      .ok (szn.name, max query_start szn.date_start, min query_end szn.date_end) := by
  induction pre with
  | nil =>
    have hsome : get_date_range_overlap query_start query_end szn.date_start szn.date_end =
        some (max query_start szn.date_start, min query_end szn.date_end) := by
      unfold get_date_range_overlap
      rw [if_neg (by omega)]
    simp [parse_date_query, hsome]
  | cons s rest ih =>
    have hs := hpre s (by simp)
    have hnone : get_date_range_overlap query_start query_end s.date_start s.date_end = none := by
      unfold get_date_range_overlap
      rw [if_pos (by omega)]
    simp only [List.cons_append, parse_date_query, hnone]
    exact ih fun x hx => hpre x (by simp [hx])

/-- Witness for C1 at the specification's first-match example:
seasons A = [2022-01-01, 2022-03-31] and B = [2022-03-01, 2022-06-30],
query [2022-03-15, 2022-03-20] resolves to A with the clipped bounds. -/
theorem parse_date_query_first_match_witness :
    parse_date_query [⟨"A", 20220101, 20220331⟩, ⟨"B", 20220301, 20220630⟩]
      20220315 20220320 = .ok ("A", 20220315, 20220320) :=
  parse_date_query_first_match [] [⟨"B", 20220301, 20220630⟩]
    ⟨"A", 20220101, 20220331⟩ 20220315 20220320 (by simp) (by decide)

/-! ## Claims C2 and C3: flattening covers the leaves; depth limit -/

/-- The child loop of the flattener written as a concatenation of the
recursive calls, each at `max_depth - 1`. -/
theorem flattenChildren_eq_flatten_map :
    ∀ (cs : List (String × FDict)) (nested_keys : List (Option String)) (max_depth : Int),
    flattenChildren cs nested_keys max_depth =
      (cs.map fun kc =>
        flatten_nested_imagery_filters kc.2 (nested_keys ++ [some kc.1]) (max_depth - 1)).flatten
  | [], _, _ => rfl
  | (k, sub) :: rest, nested_keys, max_depth => by
    simp [flattenChildren, flattenChildren_eq_flatten_map rest nested_keys max_depth]

mutual

/-- When the configured depth budget is at least the nesting depth,
flattening returns exactly the leaf entries, with the running path
prepended. -/
theorem flatten_eq_leafEntries :
    ∀ (d : FDict) (nested_keys : List (Option String)) (max_depth : Int),
    (fdepth d : Int) ≤ max_depth →
    flatten_nested_imagery_filters d nested_keys max_depth =
      (leafEntries d).map fun e => ⟨nested_keys ++ e.1.map some, e.2⟩
  | .node cs (some fl), nested_keys, max_depth, _ => by
    simp [flatten_nested_imagery_filters, leafEntries]
  | .node cs none, nested_keys, max_depth, h => by
    have hd : (fdepthChildren cs : Int) < max_depth := by
      simp only [fdepth] at h
      push_cast at h ⊢
      omega
    have h1 : ¬ max_depth < 1 := by
      have : (0 : Int) ≤ (fdepthChildren cs : Int) := Int.ofNat_nonneg _
      omega
    simp only [flatten_nested_imagery_filters, if_neg h1, leafEntries]
    exact flattenChildren_eq_leafChildren cs nested_keys max_depth hd

/-- Child-list version of `flatten_eq_leafEntries`. -/
theorem flattenChildren_eq_leafChildren :
    ∀ (cs : List (String × FDict)) (nested_keys : List (Option String)) (max_depth : Int),
    (fdepthChildren cs : Int) < max_depth →
    flattenChildren cs nested_keys max_depth =
      (leafChildren cs).map fun e => ⟨nested_keys ++ e.1.map some, e.2⟩
  | [], _, _, _ => rfl
  | (k, sub) :: rest, nested_keys, max_depth, h => by
    have hsub : (fdepth sub : Int) ≤ max_depth - 1 := by
      simp only [fdepthChildren] at h
      push_cast at h ⊢
      omega
    have hrest : (fdepthChildren rest : Int) < max_depth := by
      simp only [fdepthChildren] at h
      push_cast at h ⊢
      omega
    simp only [flattenChildren, leafChildren, List.map_append, List.map_map,
      flatten_eq_leafEntries sub (nested_keys ++ [some k]) (max_depth - 1) hsub,
      flattenChildren_eq_leafChildren rest nested_keys max_depth hrest]
    congr 1
    apply List.map_congr_left
    intro e _
    simp [Function.comp]

end

/-- Decides whether `p` is an initial segment of `q` (used to compare
nested-key paths). -/
def isStartOf {α : Type} [DecidableEq α] : List α → List α → Bool
  | [], _ => true
  | _ :: _, [] => false
  | a :: p, b :: q => if a = b then isStartOf p q else false

/-- Two paths diverge: neither is an initial segment of the other. -/
def divergent {α : Type} [DecidableEq α] (p q : List α) : Prop :=
  isStartOf p q = false ∧ isStartOf q p = false

theorem isStartOf_self {α : Type} [DecidableEq α] : ∀ p : List α, isStartOf p p = true
  | [] => rfl
  | _ :: p => by simp [isStartOf, isStartOf_self p]

theorem divergent_ne {α : Type} [DecidableEq α] {p q : List α} (h : divergent p q) :
    p ≠ q := by
  intro hpq
  subst hpq
  exact absurd h.1 (by simp [isStartOf_self])

theorem divergent_symm {α : Type} [DecidableEq α] {p q : List α} (h : divergent p q) :
    divergent q p := ⟨h.2, h.1⟩

theorem divergent_cons_same {α : Type} [DecidableEq α] {p q : List α} (a : α)
    (h : divergent p q) : divergent (a :: p) (a :: q) := by
  unfold divergent at h ⊢
  simp [isStartOf, h.1, h.2]

theorem divergent_cons_ne {α : Type} [DecidableEq α] {a b : α} (p q : List α)
    (h : a ≠ b) : divergent (a :: p) (b :: q) := by
  unfold divergent
  simp [isStartOf, h, Ne.symm h]

theorem divergent_map_some {α : Type} [DecidableEq α] :
    ∀ {p q : List α}, divergent p q → divergent (p.map some) (q.map some) := by
  have key : ∀ p q : List α, isStartOf (p.map some) (q.map some) = isStartOf p q := by
    intro p
    induction p with
    | nil => intro q; rfl
    | cons a p ih =>
      intro q
      cases q with
      | nil => rfl
      | cons b q =>
        by_cases hab : a = b <;> simp [isStartOf, hab, ih]
  intro p q h
  exact ⟨by rw [key]; exact h.1, by rw [key]; exact h.2⟩

/-- Every leaf path of a child list is headed by one of the child keys. -/
theorem leafChildren_path_head :
    ∀ (cs : List (String × FDict)) (p : List String),
    p ∈ (leafChildren cs).map Prod.fst → ∃ k q, p = k :: q ∧ k ∈ cs.map Prod.fst
  | [], p, h => by simp [leafChildren] at h
  | (k, sub) :: rest, p, h => by
    simp only [leafChildren, List.map_append, List.mem_append, List.map_map] at h
    rcases h with h | h
    · simp only [List.mem_map, Function.comp] at h
      obtain ⟨e, -, he⟩ := h
      exact ⟨k, e.1, he.symm, by simp⟩
    · obtain ⟨k', q', hpq, hk'⟩ := leafChildren_path_head rest p h
      exact ⟨k', q', hpq, by simp [hk']⟩

mutual

/-- The leaf paths of a well-formed configuration are pairwise
divergent (no path is an initial segment of another). -/
theorem leafEntries_antichain :
    ∀ (d : FDict), wfFDict d = true → ((leafEntries d).map Prod.fst).Pairwise divergent
  | .node cs (some fl), _ => by simp [leafEntries]
  | .node cs none, h => by
    simp only [wfFDict, Bool.and_eq_true, decide_eq_true_eq] at h
    simpa only [leafEntries] using leafChildren_antichain cs h.1.1 h.2

/-- Child-list version of `leafEntries_antichain`. -/
theorem leafChildren_antichain :
    ∀ (cs : List (String × FDict)), (cs.map Prod.fst).Nodup → wfChildren cs = true →
    ((leafChildren cs).map Prod.fst).Pairwise divergent
  | [], _, _ => by simp [leafChildren]
  | (k, sub) :: rest, hnd, hwf => by
    simp only [wfChildren, Bool.and_eq_true] at hwf
    simp only [List.map_cons, List.nodup_cons] at hnd
    simp only [leafChildren, List.map_append, List.pairwise_append]
    refine ⟨?_, leafChildren_antichain rest hnd.2 hwf.2, ?_⟩
    · have hsub := leafEntries_antichain sub hwf.1
      rw [List.pairwise_map] at hsub
      simp only [List.map_map]
      rw [List.pairwise_map]
      exact hsub.imp fun hab => by simpa [Function.comp] using divergent_cons_same k hab
    · intro p hp q hq
      simp only [List.map_map, List.mem_map, Function.comp] at hp
      obtain ⟨e, -, he⟩ := hp
      obtain ⟨k', q', hq', hk'⟩ := leafChildren_path_head rest q hq
      subst he hq'
      exact divergent_cons_ne _ _ fun hkk => hnd.1 (hkk ▸ hk')

end

/-- The `example_S1_filters` grouping configuration of
`config/collection_filters.py`. -/
def example_S1_filters : FDict :=
  .node
    [("EW", .node [("HH-HV", .node [] (some
        [⟨"listContains", ["transmitterReceiverPolarisation", "HH"]⟩,
         ⟨"listContains", ["transmitterReceiverPolarisation", "HV"]⟩,
         ⟨"eq", ["instrumentMode", "EW"]⟩]))] none),
     ("IW", .node [("VV", .node [] (some
        [⟨"listContains", ["transmitterReceiverPolarisation", "VV"]⟩,
         ⟨"eq", ["instrumentMode", "IW"]⟩]))] none)]
    none

/-- C2: for every well-formed configuration (distinct keys per level, no
group key literally named `filters`) whose nesting depth fits in the
depth budget, flattening emits exactly one entry per reachable leaf
FilterSet — equal, entry by entry and in order, to the leaf entries of
the configuration with the child keys appended along the way — and the
returned paths contain no duplicates. -/
theorem flatten_one_entry_per_leaf (d : FDict) (max_depth : Int)
    (hwf : wfFDict d = true) (hdepth : (fdepth d : Int) ≤ max_depth) :
    flatten_nested_imagery_filters d [] max_depth =
      (leafEntries d).map (fun e => ⟨e.1.map some, e.2⟩) ∧
    ((flatten_nested_imagery_filters d [] max_depth).map FlatEntry.nested_keys).Nodup := by
  have heq := flatten_eq_leafEntries d [] max_depth hdepth
  simp only [List.nil_append] at heq
  refine ⟨heq, ?_⟩
  rw [heq]
  simp only [List.map_map]
  have hpaths := leafEntries_antichain d hwf
  rw [List.pairwise_map] at hpaths
  rw [List.Nodup, List.pairwise_map]
  refine hpaths.imp ?_
  intro a b hab hEq
  refine divergent_ne (divergent_map_some hab) ?_
  simpa [Function.comp] using hEq

/-- Witness for C2 at the repository's `example_S1_filters`
configuration. -/
theorem flatten_one_entry_per_leaf_witness :
    flatten_nested_imagery_filters example_S1_filters [] 10 =
      (leafEntries example_S1_filters).map (fun e => ⟨e.1.map some, e.2⟩) ∧
    ((flatten_nested_imagery_filters example_S1_filters [] 10).map
        FlatEntry.nested_keys).Nodup :=
  flatten_one_entry_per_leaf example_S1_filters 10 (by decide) (by decide)

/-- C3: flattening terminates on every input because every recursive
call strictly decreases `max_depth` (the recursive case processes each
child at `max_depth - 1`, second conjunct), and a branch whose budget is
exhausted before a `filters` key is found yields the single degenerate
entry `{path + [None], []}` instead of raising (first conjunct). -/
theorem flatten_depth_exhausted (cs : List (String × FDict))
    (nested_keys : List (Option String)) (max_depth : Int) :
    (max_depth < 1 →
      flatten_nested_imagery_filters (.node cs none) nested_keys max_depth =
        [⟨nested_keys ++ [none], []⟩]) ∧
    (1 ≤ max_depth →
      flatten_nested_imagery_filters (.node cs none) nested_keys max_depth =
        (cs.map fun kc =>
          flatten_nested_imagery_filters kc.2 (nested_keys ++ [some kc.1])
            (max_depth - 1)).flatten) := by
  constructor
  · intro h
    simp [flatten_nested_imagery_filters, h]
  · intro h
    have h1 : ¬ max_depth < 1 := by omega
    simp only [flatten_nested_imagery_filters, if_neg h1]
    exact flattenChildren_eq_flatten_map cs nested_keys max_depth

/-- Witness for C3: a configuration one level deep, flattened with an
exhausted budget (degenerate entry) and with a positive budget
(recursion at `max_depth - 1`). -/
theorem flatten_depth_exhausted_witness :
    flatten_nested_imagery_filters (.node [("a", .node [] none)] none) [] 0 =
      [⟨[none], []⟩] ∧
    flatten_nested_imagery_filters (.node [("a", .node [] none)] none) [] 5 =
      ([("a", FDict.node [] none)].map fun kc =>
        flatten_nested_imagery_filters kc.2 ([] ++ [some kc.1]) (5 - 1)).flatten :=
  ⟨(flatten_depth_exhausted _ [] 0).1 (by decide),
   (flatten_depth_exhausted _ [] 5).2 (by decide)⟩

/-! ## Claim C4: mosaicking windows -/

/-- The window length of every supported mosaic window is positive. -/
theorem unitMinutes_pos {mosaic_window : String}
    (h : mosaic_window ∈ supported_mosaic_windows) : 0 < unitMinutes mosaic_window := by
  simp only [supported_mosaic_windows, List.mem_cons, List.mem_singleton,
    List.not_mem_nil, or_false] at h
  rcases h with rfl | rfl | rfl <;> decide

/-- The iteration of the mosaicking function over the window starts is
the concatenation of the per-window composites. -/
theorem foldl_mosaicking (collection : List Image) (roi : String) (u : Nat) :
    ∀ (starts : List Nat) (acc : List MosaicImage),
    starts.foldl (fun image_list datetime =>
      match windowImages (sortColl collection) datetime u with
      | [] => image_list
      | t0 :: rest => image_list ++ [⟨t0 :: rest, t0.time, t0.resolution_meters, roi⟩]) acc =
    acc ++ starts.filterMap (windowMosaic collection roi u)
  | [], acc => by simp
  | d :: starts, acc => by
    rw [List.foldl_cons, List.filterMap_cons, foldl_mosaicking collection roi u starts]
    unfold windowMosaic
    cases h : windowImages (sortColl collection) d u with
    | nil => simp
    | cons t0 rest => simp

/-- For a supported window, `doMosaic` succeeds and returns exactly the
per-window composites, in window order. -/
theorem mem_sortColl {img : Image} {collection : List Image} :
    img ∈ sortColl collection ↔ img ∈ collection :=
  (List.perm_insertionSort timeLE collection).mem_iff

theorem doMosaic_eq_filterMap (collection : List Image) (startDate endDate : Nat)
    (roi : String) (mosaic_window : String)
    (hw : mosaic_window ∈ supported_mosaic_windows) :
    doMosaic collection startDate endDate roi mosaic_window =
      .ok ((windowStarts startDate endDate (unitMinutes mosaic_window)).filterMap
        (windowMosaic collection roi (unitMinutes mosaic_window))) := by
  have hfold := foldl_mosaicking collection roi (unitMinutes mosaic_window)
    (windowStarts startDate endDate (unitMinutes mosaic_window)) []
  simp only [List.nil_append] at hfold
  unfold doMosaic genMosaickingFunction
  rw [if_pos hw, if_pos hw]
  exact congrArg Except.ok hfold

/-- A window contributes no composite exactly when no image of the
source collection has its timestamp in the window. -/
theorem windowMosaic_none_iff (collection : List Image) (roi : String) (u datetime : Nat) :
    windowMosaic collection roi u datetime = none ↔
      ∀ img ∈ collection, ¬(datetime ≤ img.time ∧ img.time < datetime + u) := by
  unfold windowMosaic
  cases h : windowImages (sortColl collection) datetime u with
  | nil =>
    simp only [true_iff]
    unfold windowImages at h
    rw [List.filter_eq_nil_iff] at h
    intro img hmem hwin
    exact h img (mem_sortColl.mpr hmem) (by simp [hwin.1, hwin.2])
  | cons t0 rest =>
    simp only [reduceCtorEq, false_iff]
    push_neg
    have ht0 : t0 ∈ windowImages (sortColl collection) datetime u := by simp [h]
    unfold windowImages at ht0
    rw [List.mem_filter] at ht0
    have hwin := ht0.2
    simp only [Bool.and_eq_true, decide_eq_true_eq] at hwin
    exact ⟨t0, mem_sortColl.mp ht0.1, hwin.1, hwin.2⟩

/-- A window that does contribute a composite contributes exactly one,
clipped to `roi` and tagged with the timestamp of the earliest source
image inside the window (the first element of the window's slice of the
time-sorted collection), not with the window's start datetime. -/
theorem windowMosaic_some (collection : List Image) (roi : String) (u datetime : Nat)
    (m : MosaicImage) (hm : windowMosaic collection roi u datetime = some m) :
    (∃ img ∈ collection,
        (datetime ≤ img.time ∧ img.time < datetime + u) ∧ m.time_start = img.time) ∧
    (∀ img ∈ collection, datetime ≤ img.time → img.time < datetime + u →
        m.time_start ≤ img.time) ∧
    m.region = roi := by
  unfold windowMosaic at hm
  cases h : windowImages (sortColl collection) datetime u with
  | nil => rw [h] at hm; cases hm
  | cons t0 rest =>
    rw [h] at hm
    cases hm
    have ht0 : t0 ∈ windowImages (sortColl collection) datetime u := by simp [h]
    unfold windowImages at ht0
    rw [List.mem_filter] at ht0
    have ht0win : datetime ≤ t0.time ∧ t0.time < datetime + u := by
      have := ht0.2
      simp only [Bool.and_eq_true, decide_eq_true_eq] at this
      exact this
    refine ⟨⟨t0, mem_sortColl.mp ht0.1, ht0win, rfl⟩, ?_, rfl⟩
    intro img hmem hlo hhi
    have himg : img ∈ windowImages (sortColl collection) datetime u := by
      unfold windowImages
      rw [List.mem_filter]
      exact ⟨mem_sortColl.mpr hmem, by simp [hlo, hhi]⟩
    have hsorted : (windowImages (sortColl collection) datetime u).Pairwise timeLE := by
      unfold windowImages
      exact (List.sorted_insertionSort timeLE collection).filter _
    rw [h, List.mem_cons] at himg
    rw [h] at hsorted
    rcases himg with heq | hin
    · simp [heq]
    · exact (List.pairwise_cons.mp hsorted).1 img hin

/-- The window starts advance from `startDate` by one window unit at a
time, and together the windows cover every instant of
`[startDate, endDate]`. -/
theorem windowStarts_cover (startDate endDate u : Nat) (hu : 0 < u)
    (t : Nat) (h1 : startDate ≤ t) (h2 : t ≤ endDate) :
    ∃ d ∈ windowStarts startDate endDate u, d ≤ t ∧ t < d + u := by
  refine ⟨startDate + ((t - startDate) / u) * u, ?_, ?_, ?_⟩
  · unfold windowStarts
    rw [List.mem_map]
    refine ⟨(t - startDate) / u, ?_, rfl⟩
    rw [List.mem_range]
    have hmono : (t - startDate) / u ≤ (endDate - startDate) / u :=
      Nat.div_le_div_right (Nat.sub_le_sub_right h2 startDate)
    omega
  · have hd := Nat.div_add_mod (t - startDate) u
    rw [Nat.mul_comm]
    omega
  · have hd := Nat.div_add_mod (t - startDate) u
    have hm := Nat.mod_lt (t - startDate) hu
    rw [Nat.mul_comm]
    omega

/-- C4 (corrected): for every supported window size (hour, day, week —
`month` is rejected), `doMosaic` succeeds and returns one composite per
window start in order; the window starts advance from `date_start` by
one window unit at a time and cover every instant of
`[date_start, date_end]` (partial trailing window included); a window
with no source image contributes no composite; a window with at least
one source image contributes exactly one composite, clipped to the
region and tagged with the timestamp of its earliest source image. -/
theorem doMosaic_partitions (collection : List Image) (startDate endDate : Nat)
    (roi : String) (mosaic_window : String)
    (hw : mosaic_window ∈ supported_mosaic_windows) :
    doMosaic collection startDate endDate roi mosaic_window =
      .ok ((windowStarts startDate endDate (unitMinutes mosaic_window)).filterMap
        (windowMosaic collection roi (unitMinutes mosaic_window))) ∧
    (∀ datetime, windowMosaic collection roi (unitMinutes mosaic_window) datetime = none ↔
      ∀ img ∈ collection,
        ¬(datetime ≤ img.time ∧ img.time < datetime + unitMinutes mosaic_window)) ∧
    (∀ datetime m,
      windowMosaic collection roi (unitMinutes mosaic_window) datetime = some m →
      (∃ img ∈ collection,
          (datetime ≤ img.time ∧ img.time < datetime + unitMinutes mosaic_window) ∧
          m.time_start = img.time) ∧
      (∀ img ∈ collection, datetime ≤ img.time →
          img.time < datetime + unitMinutes mosaic_window → m.time_start ≤ img.time) ∧
      m.region = roi) ∧
    (∀ t, startDate ≤ t → t ≤ endDate →
      ∃ d ∈ windowStarts startDate endDate (unitMinutes mosaic_window),
        d ≤ t ∧ t < d + unitMinutes mosaic_window) :=
  ⟨doMosaic_eq_filterMap collection startDate endDate roi mosaic_window hw,
   fun datetime => windowMosaic_none_iff collection roi (unitMinutes mosaic_window) datetime,
   fun datetime m hm => windowMosaic_some collection roi (unitMinutes mosaic_window) datetime m hm,
   fun t h1 h2 => windowStarts_cover startDate endDate (unitMinutes mosaic_window)
     (unitMinutes_pos hw) t h1 h2⟩

/-- Witness for C4: two images at minutes 30 and 70 over
`[0, 130]` with hourly windows `[0,60), [60,120), [120,180)` yield two
composites tagged 30 and 70; the empty third window contributes
nothing. -/
theorem doMosaic_partitions_witness :
    doMosaic [⟨70, 10, ["HH"]⟩, ⟨30, 20, ["HH"]⟩] 0 130 "roi" "hour" =
      .ok [⟨[⟨30, 20, ["HH"]⟩], 30, 20, "roi"⟩, ⟨[⟨70, 10, ["HH"]⟩], 70, 10, "roi"⟩] := by
  have h := (doMosaic_partitions [⟨70, 10, ["HH"]⟩, ⟨30, 20, ["HH"]⟩] 0 130 "roi" "hour"
    (by decide)).1
  rw [h]
  decide

/-- Counterexample to C4 as stated: the `month` window makes `doMosaic`
raise a `ValueError` instead of succeeding, and a composite is tagged
with its first tile's timestamp (here 30), not with its window's start
timestamp (here 0). -/
theorem doMosaic_month_counterexample :
    doMosaic [⟨30, 10, ["HH"]⟩] 0 59 "roi" "month" =
      .error "mosaic_window must be in ['hour', 'day', 'week']; received month" ∧
    doMosaic [⟨30, 10, ["HH"]⟩] 0 59 "roi" "hour" =
      .ok [⟨[⟨30, 10, ["HH"]⟩], 30, 10, "roi"⟩] ∧
    (30 : Nat) ≠ 0 := by decide

/-! ## Tree processor (`eeImageryInterface.getImagery.apply_processing`) -/

/-- A stored imagery (sub)tree: either a leaf `ee.ImageCollection`
(realized as its image list) or a dict of further subtrees. -/
inductive ITree where
  | leaf : List Image → ITree
  | node : List (String × ITree) → ITree

/-- A processed imagery (sub)tree: leaves are the original collections,
possibly narrowed, or mosaic collections produced by `doMosaic`. -/
inductive PTree where
  | leaf : List Image → PTree
  | mleaf : List MosaicImage → PTree
  | node : List (String × PTree) → PTree

/-- `img.select(bands)`: keep the requested bands, in requested order.
(Earth Engine raises when a requested band is absent; the model keeps
the present ones — no claim depends on that case.) -/
def selectBands (bands : List String) (img : Image) : Image :=
  ⟨img.time, img.resolution_meters, bands.filter fun b => img.bands.contains b⟩

/-- The local variables captured by the `apply_processing` closure in
`getImagery`: the validated `date_query` bounds, the requested `bands`,
the requested `mosaic_window`, the resolved `date_start`/`date_end`
and `self.ee_roi`. -/
structure ProcessingArgs where
  date_query : Option (Nat × Nat)
  bands : List String
  mosaic_window : Option String
  date_start : Nat
  date_end : Nat
  roi : String

mutual

/-- Shallow embedding of the recursive closure `apply_processing`: at a
leaf, narrow by `ee.Filter.date(query_start, query_end)` if a date query
was given, then select `bands` if given, then mosaic by `mosaic_window`
if given (propagating `doMosaic`'s `ValueError`); at a dict, process
every child in place. -/
def apply_processing (a : ProcessingArgs) : ITree → Except String PTree
  | .leaf ptr =>
    let p1 := match a.date_query with
      | some (query_start, query_end) =>
        ptr.filter fun img => decide (query_start ≤ img.time) && decide (img.time < query_end)
      | none => ptr
    let p2 := if a.bands.isEmpty then p1 else p1.map (selectBands a.bands)
    match a.mosaic_window with
    | none => .ok (.leaf p2)
    | some w =>
      match doMosaic p2 a.date_start a.date_end a.roi w with
      | .error e => .error e
      | .ok ms => .ok (.mleaf ms)
  | .node cs =>
    match apply_processingChildren a cs with
    | .error e => .error e
    | .ok cs2 => .ok (.node cs2)

/-- The `for child_key in ptr.keys()` loop of `apply_processing`,
replacing every child with its processed result (an exception aborts the
whole call). -/
def apply_processingChildren (a : ProcessingArgs) :
    List (String × ITree) → Except String (List (String × PTree))
  | [] => .ok []
  | (k, sub) :: rest =>
    match apply_processing a sub with
    | .error e => .error e
    | .ok sub2 =>
      match apply_processingChildren a rest with
      | .error e => .error e
      | .ok rest2 => .ok ((k, sub2) :: rest2)

end

/-- Date-range narrowing, as the specification isolates it. -/
def date_range_step (date_query : Option (Nat × Nat)) (c : List Image) : List Image :=
  match date_query with
  | some (query_start, query_end) =>
    c.filter fun img => decide (query_start ≤ img.time) && decide (img.time < query_end)
  | none => c

/-- Band selection, as the specification isolates it. -/
def band_step (bands : List String) (c : List Image) : List Image :=
  if bands.isEmpty then c else c.map (selectBands bands)

/-- Temporal mosaicking, as the specification isolates it: the last
step, converting the leaf into a mosaic collection. -/
def mosaic_step (mosaic_window : Option String) (date_start date_end : Nat)
    (roi : String) (c : List Image) : Except String PTree :=
  match mosaic_window with
  | none => .ok (.leaf c)
  | some w =>
    match doMosaic c date_start date_end roi w with
    | .error e => .error e
    | .ok ms => .ok (.mleaf ms)

mutual

/-- Apply a leaf transformation uniformly at every leaf of a tree,
keeping the branching structure. -/
def mapLeavesE (f : List Image → Except String PTree) : ITree → Except String PTree
  | .leaf c => f c
  | .node cs =>
    match mapChildrenE f cs with
    | .error e => .error e
    | .ok cs2 => .ok (.node cs2)

/-- Child-list version of `mapLeavesE`. -/
def mapChildrenE (f : List Image → Except String PTree) :
    List (String × ITree) → Except String (List (String × PTree))
  | [] => .ok []
  | (k, sub) :: rest =>
    match mapLeavesE f sub with
    | .error e => .error e
    | .ok sub2 =>
      match mapChildrenE f rest with
      | .error e => .error e
      | .ok rest2 => .ok ((k, sub2) :: rest2)

end

mutual

/-- `apply_processing` is exactly the uniform application, at every
leaf, of date narrowing, then band selection, then mosaicking. -/
theorem apply_processing_eq_mapLeaves (a : ProcessingArgs) :
    ∀ t : ITree, apply_processing a t =
      mapLeavesE (fun c =>
        mosaic_step a.mosaic_window a.date_start a.date_end a.roi
          (band_step a.bands (date_range_step a.date_query c))) t
  | .leaf c => rfl
  | .node cs => by
    simp only [apply_processing, mapLeavesE,
      apply_processingChildren_eq_mapChildren a cs]

/-- Child-list version of `apply_processing_eq_mapLeaves`. -/
theorem apply_processingChildren_eq_mapChildren (a : ProcessingArgs) :
    ∀ cs : List (String × ITree), apply_processingChildren a cs =
      mapChildrenE (fun c =>
        mosaic_step a.mosaic_window a.date_start a.date_end a.roi
          (band_step a.bands (date_range_step a.date_query c))) cs
  | [] => rfl
  | (k, sub) :: rest => by
    simp only [apply_processingChildren, mapChildrenE,
      apply_processing_eq_mapLeaves a sub,
      apply_processingChildren_eq_mapChildren a rest]

end

/-- C5: for every leaf reached by the tree processor and every
combination of requested operations, the operations are applied in the
fixed order date-range narrowing, then band selection, then temporal
mosaicking, uniformly at every leaf of the subtree; the operations enter
as one record of optional values, so the result depends only on which
operations are requested, never on any presentation order. -/
theorem apply_processing_fixed_order (a : ProcessingArgs) (t : ITree) :
    apply_processing a t =
      mapLeavesE (fun c =>
        mosaic_step a.mosaic_window a.date_start a.date_end a.roi
          (band_step a.bands (date_range_step a.date_query c))) t :=
  apply_processing_eq_mapLeaves a t

/-! ## Retrieval facade (`eeImageryInterface.getImagery`) -/

mutual

/-- Returning an unprocessed subtree: the identity injection of a
stored tree into the result type. -/
def toPTree : ITree → PTree
  | .leaf c => .leaf c
  | .node cs => .node (toPTreeChildren cs)

/-- Child-list version of `toPTree`. -/
def toPTreeChildren : List (String × ITree) → List (String × PTree)
  | [] => []
  | (k, sub) :: rest => (k, toPTree sub) :: toPTreeChildren rest

end

/-- Python subscripting `x[k]` on a tree node: a dict yields its entry
(`none` models a `KeyError`), while subscripting a leaf collection
raises a `TypeError` (an `ee.ImageCollection` is not subscriptable),
which the `except KeyError` handler of `getImagery` does not catch. -/
def subscriptT : ITree → String → Except String (Option ITree)
  | .node cs, k => .ok (List.lookup k cs)
  | .leaf _, _ => .error "TypeError: argument of type ImageCollection is not subscriptable"

/-- The `for k in nested_keys` descent loop of `getImagery` (lines
199-204): a found key moves the pointer down; a missing key at a dict
level is a caught `KeyError` — warn (the counter) and continue from the
node reached so far; subscripting past a leaf propagates the uncaught
`TypeError`. -/
def descend_nested : ITree → List String → Except String (ITree × Nat)
  | t, [] => .ok (t, 0)
  | t, k :: ks =>
    match subscriptT t k with
    | .error e => .error e
    | .ok none =>
      match descend_nested t ks with
      | .error e => .error e
      | .ok (r, warned) => .ok (r, warned + 1)
    | .ok (some sub) => descend_nested sub ks

/-- A session as `getImagery` consumes it: the region of interest, the
configured season date ranges (`imagery_filters`, in insertion order)
and the canonical imagery tree keyed by `[season][collection]`. -/
structure Interface where
  ee_roi : String
  imagery_filters : List SeasonRange
  imagery : List (String × List (String × ITree))

/-- The `try: self.imagery[season][collection] except KeyError` access:
both levels are dicts built by `_reset_imagery`. -/
def lookupSC (imagery : List (String × List (String × ITree)))
    (season collection : String) : Option ITree :=
  match List.lookup season imagery with
  | none => none
  | some colls => List.lookup collection colls

/-- The caller-facing arguments of `getImagery`.  A `date_query` dict
missing `start` or `end` is discarded by the source with a warning, so a
query is either absent or a validated `(start, end)` pair. -/
structure GetArgs where
  collection : String
  nested_keys : List String
  bands : List String
  season : Option String
  date_query : Option (Nat × Nat)
  mosaic_window : Option String

/-- Shallow embedding of
`eeImageryInterface._handle_season_and_date_query_args`: a season given
together with a date query is dropped (warning), a season not present in
`imagery_filters` is dropped (warning), and if neither a valid season
nor a date query remains the call raises. -/
def handle_season_and_date_query_args (itf : Interface) (season : Option String)
    (date_query : Option (Nat × Nat)) :
    Except String (Option String × Option (Nat × Nat)) :=
  let season := if season.isSome && date_query.isSome then none else season
  let season := match season with
    | some s =>
      if (itf.imagery_filters.map SeasonRange.name).contains s then some s else none
    | none => none
  match season, date_query with
  | none, none => .error "Must specify valid season or date_query to getImagery"
  | season, date_query => .ok (season, date_query)

/-- The body of `getImagery` after season/date-query resolution:
fetch `self.imagery[season][collection]` (warn and return `None` on
`KeyError`), descend the requested `nested_keys`, return the subtree
unprocessed if no operation was requested, otherwise resolve the
mosaicking date bounds (the clipped query bounds if a date query was
given, else the season's configured bounds) and apply the processing
closure. -/
def getImageryCore (itf : Interface) (args : GetArgs) (season : String)
    (query : Option (Nat × Nat)) : Except String (Option PTree) :=
  match lookupSC itf.imagery season args.collection with
  | none => .ok none
  | some imgry0 =>
    match descend_nested imgry0 args.nested_keys with
    | .error e => .error e
    | .ok (imgry, _) =>
      if query.isNone && args.mosaic_window.isNone && args.bands.isEmpty then
        .ok (some (toPTree imgry))
      else
        match (match query with
          | some (query_start, query_end) => Except.ok (query_start, query_end)
          | none =>
            match List.find? (fun s => s.name == season) itf.imagery_filters with
            | none => Except.error "KeyError: season missing from imagery_filters"
            | some sr => Except.ok (sr.date_start, sr.date_end) :
            Except String (Nat × Nat)) with
        | .error e => .error e
        | .ok (date_start, date_end) =>
          match apply_processing
              ⟨query, args.bands, args.mosaic_window, date_start, date_end, itf.ee_roi⟩
              imgry with
          | .error e => .error e
          | .ok res => .ok (some res)

/-- Shallow embedding of `eeImageryInterface.getImagery`: validate the
season/date-query arguments, resolve a date query against the seasons
(propagating the no-matching-season error), and run the retrieval body.
The final unreachable arm mirrors the fact that
`_handle_season_and_date_query_args` has already raised when neither a
season nor a date query is available. -/
def getImagery (itf : Interface) (args : GetArgs) : Except String (Option PTree) :=
  match handle_season_and_date_query_args itf args.season args.date_query with
  | .error e => .error e
  | .ok (season, date_query) =>
    match season, date_query with
    | _, some (query_start, query_end) =>
      match parse_date_query itf.imagery_filters query_start query_end with
      | .error e => .error e
      | .ok (szn, overlap_start, overlap_end) =>
        getImageryCore itf args szn (some (overlap_start, overlap_end))
    | some szn, none => getImageryCore itf args szn none
    | none, none => .ok none

/-! ## Claims C6 and C10: no-matching-season error; missing nested keys -/

/-- When every configured season misses the query range,
`_parse_date_query` raises. -/
theorem parse_date_query_no_overlap :
    ∀ (seasons : List SeasonRange) (query_start query_end : Nat),
    (∀ s ∈ seasons, min query_end s.date_end < max query_start s.date_start) →
    parse_date_query seasons query_start query_end =
      .error "date_query did not match date range for any seasons configured."
  | [], _, _, _ => rfl
  | s :: rest, query_start, query_end, h => by
    have hs := h s (by simp)
    have hnone : get_date_range_overlap query_start query_end s.date_start s.date_end = none := by
      unfold get_date_range_overlap
      rw [if_pos (by omega)]
    simp only [parse_date_query, hnone]
    exact parse_date_query_no_overlap rest query_start query_end fun x hx => h x (by simp [hx])

/-- With a date query present, argument handling always succeeds and
passes the query through (a season given alongside is dropped). -/
theorem handle_args_with_query (itf : Interface) (season : Option String)
    (query_start query_end : Nat) :
    ∃ s', handle_season_and_date_query_args itf season (some (query_start, query_end)) =
      .ok (s', some (query_start, query_end)) := by
  cases season with
  | none => exact ⟨none, rfl⟩
  | some s => exact ⟨none, rfl⟩

/-- C6: a retrieval whose date query has an empty overlap with every
configured season raises the no-matching-season error: `getImagery`
propagates the `ValueError` of `_parse_date_query` and does not
proceed to any imagery access or processing. -/
theorem getImagery_no_matching_season (itf : Interface) (args : GetArgs)
    (query_start query_end : Nat) (hdq : args.date_query = some (query_start, query_end))
    (hnone : ∀ s ∈ itf.imagery_filters,
      min query_end s.date_end < max query_start s.date_start) :
    getImagery itf args =
      .error "date_query did not match date range for any seasons configured." := by
  obtain ⟨s', hs'⟩ := handle_args_with_query itf args.season query_start query_end
  have hp := parse_date_query_no_overlap itf.imagery_filters query_start query_end hnone
  unfold getImagery
  rw [hdq, hs']
  cases s' with
  | none => simp only [hp]
  | some s => simp only [hp]

/-- Witness for C6: a query in 2021 against a single season covering
December 2021 through May 2022. -/
theorem getImagery_no_matching_season_witness :
    getImagery
      ⟨"roi", [⟨"2022", 20211201, 20220531⟩], [("2022", [("S1", .leaf [])])]⟩
      ⟨"S1", [], [], none, some (20210101, 20210102), none⟩ =
      .error "date_query did not match date range for any seasons configured." :=
  getImagery_no_matching_season
    ⟨"roi", [⟨"2022", 20211201, 20220531⟩], [("2022", [("S1", .leaf [])])]⟩
    ⟨"S1", [], [], none, some (20210101, 20210102), none⟩
    20210101 20210102 rfl (by decide)

/-- C10: during the nested-key descent of `getImagery`, a key absent at
a dict level is recovered per key: the source warns (the counter
increases by one) and continues with the remaining keys from the node
reached so far (the subtree pointer is unchanged); a key that is found
moves the pointer to that child.  The retrieval then proceeds with the
reached node. -/
theorem descend_nested_per_key (cs : List (String × ITree)) (k : String)
    (ks : List String) :
    (List.lookup k cs = none →
      descend_nested (.node cs) (k :: ks) =
        (descend_nested (.node cs) ks).map fun r => (r.1, r.2 + 1)) ∧
    (∀ sub, List.lookup k cs = some sub →
      descend_nested (.node cs) (k :: ks) = descend_nested sub ks) := by
  constructor
  · intro hmiss
    simp only [descend_nested, subscriptT, hmiss]
    cases h : descend_nested (.node cs) ks with
    | error e => simp [Except.map, h]
    | ok r => simp [Except.map, h]
  · intro sub hfound
    simp only [descend_nested, subscriptT, hfound]

/-- Witness for C10: key `b` is missing at the top level of a tree with
a single child `a`, so the pointer stays and one warning is issued;
key `a` is found and the pointer descends. -/
theorem descend_nested_per_key_witness :
    (descend_nested (.node [("a", .leaf [])]) ["b"] =
      (descend_nested (.node [("a", ITree.leaf [])]) []).map fun r => (r.1, r.2 + 1)) ∧
    descend_nested (.node [("a", .leaf [])]) ["a"] = descend_nested (.leaf []) [] :=
  ⟨(descend_nested_per_key [("a", .leaf [])] "b" []).1 (by rfl),
   (descend_nested_per_key [("a", .leaf [])] "a" []).2 (.leaf []) (by rfl)⟩

/-! ## Grouped collection builder (`eeImageryInterface.__init__`,
`eeImageryInterface._loadImagery`) -/

/-- A symbolic Earth Engine filter predicate, as instantiated by the
builder: `ee.Filter.date`, `ee.Filter.bounds`, or a configured
predicate `getattr(ee.Filter, type)(*args)`. -/
inductive EEFilter where
  | date : Nat → Nat → EEFilter
  | bounds : String → EEFilter
  | mk : String → List String → EEFilter
  deriving DecidableEq

/-- A symbolic Earth Engine collection handle: the catalog source, a
`.filter(...)` narrowing, or the `.map(lambda img: img.clip(roi))`
clipping step.  Two handles are equal exactly when the same catalog
operations were issued in the same order. -/
inductive EColl where
  | imageCollection : String → EColl
  | filt : EColl → EEFilter → EColl
  | clipMap : EColl → String → EColl
  deriving DecidableEq

/-- Keys of the stored imagery dict.  Seasons and collections are
strings; a nested key may be the Python sentinel `None` appended by a
depth-exhausted flatten, hence `Option String`. -/
abbrev IKey := Option String

/-- A value of the nested `self.imagery` dict: a collection handle at a
leaf or a nested dict. -/
inductive IVal where
  | coll : EColl → IVal
  | tree : List (IKey × IVal) → IVal

/-- Python dict assignment `d[k] = v`: replace in place if the key
exists (preserving insertion order), else append. -/
def setKey : List (IKey × IVal) → IKey → IVal → List (IKey × IVal)
  | [], k, v => [(k, v)]
  | (k0, v0) :: rest, k, v =>
    if k0 = k then (k0, v) :: rest else (k0, v0) :: setKey rest k v

/-- The path-construction loop of `_loadImagery`:
`for k in imgry_keys[:-1]: imgry_ptr = imgry_ptr.setdefault(k, {})`
followed by `imgry_ptr[imgry_keys[-1]] = filtered_coll`.  A missing
intermediate key is created as a fresh dict.  The wildcard arm also
covers a non-dict occupant of an intermediate key, where the source
would raise `AttributeError`; that situation is unreachable for the
paths `_loadImagery` produces, which are pairwise divergent (see
`lookupPath_foldl_insert`), and the paths used always have at least the
two keys `[season, collection]` (the empty-path arm is likewise
unreachable). -/
def insertPath : List (IKey × IVal) → List IKey → EColl → List (IKey × IVal)
  | es, [], _ => es
  | es, [k], c => setKey es k (.coll c)
  | es, k :: k1 :: ks, c =>
    match List.lookup k es with
    | some (.tree sub) => setKey es k (.tree (insertPath sub (k1 :: ks) c))
    | _ => setKey es k (.tree (insertPath [] (k1 :: ks) c))

/-- Read the value stored at a nested key path. -/
def lookupPath : List (IKey × IVal) → List IKey → Option IVal
  | _, [] => none
  | es, [k] => List.lookup k es
  | es, k :: k1 :: ks =>
    match List.lookup k es with
    | some (.tree sub) => lookupPath sub (k1 :: ks)
    | _ => none

/-- The baseline handle of `_loadImagery` for one (season, collection)
pair: the catalog source filtered to the season's date range, filtered
to intersect the region, and clipped to it. -/
def baseline (ee_coll_name roi : String) (date_start date_end : Nat) : EColl :=
  .clipMap (.filt (.filt (.imageCollection ee_coll_name) (.date date_start date_end))
    (.bounds roi)) roi

/-- The narrowing chain of `_loadImagery`: apply every configured
FilterSpec in order, each instantiating one `ee.Filter` predicate. -/
def applyFilters (base_coll : EColl) (filters : List FilterSpec) : EColl :=
  filters.foldl (fun filtered_coll f => .filt filtered_coll (.mk f.type f.args)) base_coll

/-- One season of `imagery_filters`: the date range plus the
per-collection grouping configuration (the non-date keys). -/
structure SeasonFilters where
  date_start : Nat
  date_end : Nat
  groups : List (String × FDict)

/-- The configuration consumed at construction: region of interest,
collection nicknames with their catalog source ids, and the seasons. -/
structure IConfig where
  ee_roi : String
  image_collections : List (String × String)
  imagery_filters : List (String × SeasonFilters)

/-- The cached `_flattened_filters[szn][coll_key]`: the flattening of
the collection's grouping config at the default depth 10; a collection
not configured for the season keeps the initial empty dict, over which
`_loadImagery` iterates nothing. -/
def flattenedFor (sf : SeasonFilters) (coll_key : String) : List FlatEntry :=
  match List.lookup coll_key sf.groups with
  | some g => flatten_nested_imagery_filters g [] 10
  | none => []

/-- `_reset_imagery`: one empty dict per season and collection. -/
def initImagery (cfg : IConfig) : List (IKey × IVal) :=
  cfg.imagery_filters.map fun p =>
    (some p.1, IVal.tree (cfg.image_collections.map fun c => (some c.1, IVal.tree [])))

/-- The sequence of installs `_loadImagery` performs for one season, in
iteration order: for every collection, for every flattened entry, the
full path `[szn, coll_key] + nested_keys` together with the entry's
narrowing of the pair's baseline handle. -/
def seasonInserts (roi : String) (collections : List (String × String)) (szn : String)
    (sf : SeasonFilters) : List (List IKey × EColl) :=
  collections.flatMap fun ckv =>
    (flattenedFor sf ckv.1).map fun e =>
      (some szn :: some ckv.1 :: e.nested_keys,
        applyFilters (baseline ckv.2 roi sf.date_start sf.date_end) e.filters)

/-- Shallow embedding of `_loadImagery`: reset the imagery dict, then
perform every install in iteration order (seasons, then collections,
then flattened entries). -/
def loadImagery (cfg : IConfig) : List (IKey × IVal) :=
  (cfg.imagery_filters.flatMap fun p =>
      seasonInserts cfg.ee_roi cfg.image_collections p.1 p.2).foldl
    (fun acc pc => insertPath acc pc.1 pc.2) (initImagery cfg)

/-- The message of the `assert hasattr(ee.Filter, f['type'])` failure:
it names the collection key and the filter type — not the season. -/
def invalidFilterMsg (coll_key ftype : String) : String :=
  "Invalid filter type provided for " ++ coll_key ++ ": " ++ ftype

/-- The per-FilterSet validation loop of `__init__`:
`assert hasattr(ee.Filter, f['type'])` for every configured filter.
`eeFilterTypes` is the predicate vocabulary of the external catalog
collaborator (the attributes of `ee.Filter`). -/
def checkFilterList (coll_key : String) (eeFilterTypes : List String) :
    List FilterSpec → Except String Unit
  | [] => .ok ()
  | f :: rest =>
    if f.type ∈ eeFilterTypes then checkFilterList coll_key eeFilterTypes rest
    else .error (invalidFilterMsg coll_key f.type)

/-- Validation over all flattened entries of one collection. -/
def checkEntryList (coll_key : String) (eeFilterTypes : List String) :
    List FlatEntry → Except String Unit
  | [] => .ok ()
  | e :: rest =>
    match checkFilterList coll_key eeFilterTypes e.filters with
    | .error msg => .error msg
    | .ok _ => checkEntryList coll_key eeFilterTypes rest

/-- The per-season loop of `__init__`: every non-date key must be a
known collection nickname, and every flattened filter must name a known
predicate. -/
def checkGroups (eeFilterTypes accepted : List String) (szn : String) :
    List (String × FDict) → Except String Unit
  | [] => .ok ()
  | (coll_key, g) :: rest =>
    if coll_key ∈ accepted then
      match checkEntryList coll_key eeFilterTypes
          (flatten_nested_imagery_filters g [] 10) with
      | .error msg => .error msg
      | .ok _ => checkGroups eeFilterTypes accepted szn rest
    else .error ("imagery_filters key " ++ coll_key ++ " for " ++ szn ++ " not recognized.")

/-- The validation pass of `__init__` over all seasons. -/
def checkSeasons (eeFilterTypes accepted : List String) :
    List (String × SeasonFilters) → Except String Unit
  | [] => .ok ()
  | (szn, sf) :: rest =>
    match checkGroups eeFilterTypes accepted szn sf.groups with
    | .error msg => .error msg
    | .ok _ => checkSeasons eeFilterTypes accepted rest

/-- Shallow embedding of session construction
(`eeImageryInterface.__init__`): the configuration is validated while
flattening, and only if every check passes is the imagery tree built
(`self.imagery = {}; self._loadImagery()` runs after the loop). -/
def initInterface (eeFilterTypes : List String) (cfg : IConfig) :
    Except String (List (IKey × IVal)) :=
  match checkSeasons eeFilterTypes (cfg.image_collections.map Prod.fst)
      cfg.imagery_filters with
  | .error msg => .error msg
  | .ok _ => .ok (loadImagery cfg)

/-! ## Claims C7 and C8: load-time validation; installed paths -/

theorem lookup_cons (k k0 : IKey) (v0 : IVal) (rest : List (IKey × IVal)) :
    List.lookup k ((k0, v0) :: rest) = if k = k0 then some v0 else List.lookup k rest := by
  by_cases h : k = k0
  · simp [List.lookup, h]
  · have hb : (k == k0) = false := by simpa using h
    simp [List.lookup, hb, h]

theorem lookup_setKey_self : ∀ (es : List (IKey × IVal)) (k : IKey) (v : IVal),
    List.lookup k (setKey es k v) = some v
  | [], k, v => by simp [setKey, lookup_cons]
  | (k0, v0) :: rest, k, v => by
    by_cases h : k0 = k
    · simp [setKey, h, lookup_cons]
    · simp [setKey, h, lookup_cons, Ne.symm h, lookup_setKey_self rest k v]

theorem lookup_setKey_ne : ∀ (es : List (IKey × IVal)) (k k' : IKey) (v : IVal),
    k ≠ k' → List.lookup k' (setKey es k v) = List.lookup k' es
  | [], k, k', v, h => by
    simp [setKey, lookup_cons, Ne.symm h]
  | (k0, v0) :: rest, k, k', v, h => by
    by_cases h0 : k0 = k
    · subst h0
      simp [setKey, lookup_cons, Ne.symm h]
    · simp only [setKey, if_neg h0, lookup_cons]
      by_cases hk : k' = k0
      · simp [hk]
      · simp [hk, lookup_setKey_ne rest k k' v h]

theorem lookupPath_nil : ∀ q : List IKey, lookupPath [] q = none
  | [] => rfl
  | [_] => rfl
  | _ :: _ :: _ => rfl

/-- After installing a collection at a non-empty path, it is found at
exactly that path (intermediate levels are created as needed). -/
theorem lookupPath_insertPath_self : ∀ (p : List IKey) (es : List (IKey × IVal)) (c : EColl),
    p ≠ [] → lookupPath (insertPath es p c) p = some (.coll c)
  | [], _, _, h => absurd rfl h
  | [k], es, c, _ => by
    simp [insertPath, lookupPath, lookup_setKey_self]
  | k :: k1 :: ks, es, c, _ => by
    simp only [insertPath]
    cases h : List.lookup k es with
    | none =>
      simp [lookupPath, lookup_setKey_self,
        lookupPath_insertPath_self (k1 :: ks) [] c (by simp)]
    | some v =>
      cases v with
      | tree sub =>
        simp [lookupPath, lookup_setKey_self,
          lookupPath_insertPath_self (k1 :: ks) sub c (by simp)]
      | coll c0 =>
        simp [lookupPath, lookup_setKey_self,
          lookupPath_insertPath_self (k1 :: ks) [] c (by simp)]

/-- Installing at a path leaves every divergent path unchanged. -/
theorem lookupPath_insertPath_divergent :
    ∀ (p q : List IKey) (es : List (IKey × IVal)) (c : EColl),
    divergent p q → lookupPath (insertPath es p c) q = lookupPath es q
  | [], q, es, c, hd => by
    exact absurd hd.1 (by simp [isStartOf])
  | [k], q, es, c, hd => by
    cases q with
    | nil => rfl
    | cons k' qs =>
      have hkk : k ≠ k' := by
        intro h
        subst h
        cases qs with
        | nil => exact absurd hd.1 (by simp [isStartOf])
        | cons q1 qs' => exact absurd hd.1 (by simp [isStartOf])
      cases qs with
      | nil =>
        simp only [insertPath, lookupPath]
        exact lookup_setKey_ne es k k' (.coll c) hkk
      | cons q1 qs' =>
        simp only [insertPath, lookupPath]
        rw [lookup_setKey_ne es k k' (.coll c) hkk]
  | k :: k1 :: ks, q, es, c, hd => by
    cases q with
    | nil =>
      simp only [insertPath]
      cases h : List.lookup k es with
      | none => rfl
      | some v => cases v <;> rfl
    | cons k' qs =>
      by_cases hkk : k = k'
      · subst hkk
        cases qs with
        | nil => exact absurd hd.2 (by simp [isStartOf, isStartOf_self])
        | cons q1 qs' =>
          have hd' : divergent (k1 :: ks) (q1 :: qs') := by
            refine ⟨?_, ?_⟩
            · have h1 := hd.1
              simpa [isStartOf] using h1
            · have h2 := hd.2
              simpa [isStartOf] using h2
          cases h : List.lookup k es with
          | none =>
            simp only [insertPath, h, lookupPath, lookup_setKey_self]
            rw [lookupPath_insertPath_divergent (k1 :: ks) (q1 :: qs') [] c hd',
              lookupPath_nil]
          | some v =>
            cases v with
            | tree sub =>
              simp only [insertPath, h, lookupPath, lookup_setKey_self]
              exact lookupPath_insertPath_divergent (k1 :: ks) (q1 :: qs') sub c hd'
            | coll c0 =>
              simp only [insertPath, h, lookupPath, lookup_setKey_self]
              rw [lookupPath_insertPath_divergent (k1 :: ks) (q1 :: qs') [] c hd',
                lookupPath_nil]
      · cases qs with
        | nil =>
          simp only [insertPath, lookupPath]
          cases h : List.lookup k es with
          | none => rw [lookup_setKey_ne es k k' _ hkk]
          | some v => cases v <;> rw [lookup_setKey_ne es k k' _ hkk]
        | cons q1 qs' =>
          simp only [insertPath, lookupPath]
          cases h : List.lookup k es with
          | none => rw [lookup_setKey_ne es k k' _ hkk]
          | some v => cases v <;> rw [lookup_setKey_ne es k k' _ hkk]

/-- Installs at paths divergent from `q` do not change what is stored
at `q`. -/
theorem lookupPath_foldl_preserve :
    ∀ (l : List (List IKey × EColl)) (t : List (IKey × IVal)) (q : List IKey),
    (∀ pc ∈ l, divergent pc.1 q) →
    lookupPath (l.foldl (fun acc pc => insertPath acc pc.1 pc.2) t) q = lookupPath t q
  | [], _, _, _ => rfl
  | (p0, c0) :: rest, t, q, h => by
    rw [List.foldl_cons,
      lookupPath_foldl_preserve rest _ q (fun pc hpc => h pc (by simp [hpc])),
      lookupPath_insertPath_divergent p0 q t c0 (h (p0, c0) (by simp))]

/-- Performing a sequence of installs at pairwise-divergent paths makes
every one of them retrievable at exactly its own path. -/
theorem lookupPath_foldl_insert :
    ∀ (l : List (List IKey × EColl)) (t : List (IKey × IVal)) (p : List IKey) (c : EColl),
    (p, c) ∈ l → p ≠ [] →
    l.Pairwise (fun a b => divergent a.1 b.1) →
    lookupPath (l.foldl (fun acc pc => insertPath acc pc.1 pc.2) t) p = some (.coll c)
  | [], _, _, _, hm, _, _ => absurd hm (by simp)
  | (p0, c0) :: rest, t, p, c, hm, hp, hpw => by
    have hpair := List.pairwise_cons.mp hpw
    rcases List.mem_cons.mp hm with heq | hm'
    · injection heq with h1 h2
      subst h1
      subst h2
      rw [List.foldl_cons,
        lookupPath_foldl_preserve rest _ p
          (fun pc hpc => divergent_symm (hpair.1 pc hpc)),
        lookupPath_insertPath_self p t c hp]
    · rw [List.foldl_cons]
      exact lookupPath_foldl_insert rest _ p c hm' hp hpair.2

/-- The nested-key paths flattened from a well-formed, depth-respecting
configuration are pairwise divergent. -/
theorem flatten_paths_pairwise (g : FDict) (hwf : wfFDict g = true) (hd : fdepth g ≤ 10) :
    ((flatten_nested_imagery_filters g [] 10).map FlatEntry.nested_keys).Pairwise divergent := by
  have heq := flatten_eq_leafEntries g [] 10 (by exact_mod_cast hd)
  rw [heq, List.map_map]
  have h := leafEntries_antichain g hwf
  rw [List.pairwise_map] at h
  rw [List.pairwise_map]
  refine h.imp ?_
  intro a b hab
  simpa [Function.comp] using divergent_map_some hab

/-- Every install of a season starts with `[szn, coll_key]` for a known
collection. -/
theorem seasonInserts_mem_path (roi : String) (collections : List (String × String))
    (szn : String) (sf : SeasonFilters) :
    ∀ pc ∈ seasonInserts roi collections szn sf,
    ∃ ck rest, pc.1 = some szn :: some ck :: rest ∧ ck ∈ collections.map Prod.fst := by
  intro pc hpc
  unfold seasonInserts at hpc
  rw [List.mem_flatMap] at hpc
  obtain ⟨ckv, hckv, hpc⟩ := hpc
  rw [List.mem_map] at hpc
  obtain ⟨e, he, rfl⟩ := hpc
  exact ⟨ckv.1, e.nested_keys, rfl, List.mem_map.mpr ⟨ckv, hckv, rfl⟩⟩

/-- The installs of one season target pairwise divergent paths. -/
theorem seasonInserts_pairwise (roi : String) (szn : String) (sf : SeasonFilters)
    (hwf : ∀ ck g, List.lookup ck sf.groups = some g →
      wfFDict g = true ∧ fdepth g ≤ 10) :
    ∀ (collections : List (String × String)),
    (collections.map Prod.fst).Nodup →
    (seasonInserts roi collections szn sf).Pairwise fun a b => divergent a.1 b.1
  | [], _ => by simp [seasonInserts]
  | ckv :: rest, hnd => by
    simp only [List.map_cons, List.nodup_cons] at hnd
    unfold seasonInserts
    rw [List.flatMap_cons, List.pairwise_append]
    refine ⟨?_, seasonInserts_pairwise roi szn sf hwf rest hnd.2, ?_⟩
    · rw [List.pairwise_map]
      have hfl : (flattenedFor sf ckv.1).Pairwise
          fun e1 e2 => divergent e1.nested_keys e2.nested_keys := by
        unfold flattenedFor
        cases hlk : List.lookup ckv.1 sf.groups with
        | none => simp
        | some g =>
          have hg := hwf ckv.1 g hlk
          have := flatten_paths_pairwise g hg.1 hg.2
          rwa [List.pairwise_map] at this
      refine hfl.imp ?_
      intro e1 e2 h12
      exact divergent_cons_same _ (divergent_cons_same _ h12)
    · intro a ha b hb
      rw [List.mem_map] at ha
      obtain ⟨e, -, rfl⟩ := ha
      obtain ⟨ck', rest', hb', hck'⟩ :=
        seasonInserts_mem_path roi rest szn sf b hb
      rw [hb']
      refine divergent_cons_same _ (divergent_cons_ne _ _ ?_)
      intro hee
      injection hee with hee
      exact hnd.1 (hee ▸ hck')

/-- All installs of `_loadImagery` target pairwise divergent paths. -/
theorem allInserts_pairwise (roi : String) (collections : List (String × String))
    (hcoll : (collections.map Prod.fst).Nodup) :
    ∀ (ls : List (String × SeasonFilters)),
    (ls.map Prod.fst).Nodup →
    (∀ szn sf, (szn, sf) ∈ ls → ∀ ck g, List.lookup ck sf.groups = some g →
      wfFDict g = true ∧ fdepth g ≤ 10) →
    (ls.flatMap fun p => seasonInserts roi collections p.1 p.2).Pairwise
      fun a b => divergent a.1 b.1
  | [], _, _ => by simp
  | (szn0, sf0) :: rest, hnd, hwf => by
    simp only [List.map_cons, List.nodup_cons] at hnd
    rw [List.flatMap_cons, List.pairwise_append]
    refine ⟨seasonInserts_pairwise roi szn0 sf0
        (hwf szn0 sf0 (by simp)) collections hcoll,
      allInserts_pairwise roi collections hcoll rest hnd.2
        (fun szn sf hsf => hwf szn sf (by simp [hsf])), ?_⟩
    intro a ha b hb
    obtain ⟨cka, resta, ha', -⟩ := seasonInserts_mem_path roi collections szn0 sf0 a ha
    rw [List.mem_flatMap] at hb
    obtain ⟨⟨szn1, sf1⟩, hszn1, hb⟩ := hb
    obtain ⟨ckb, restb, hb', -⟩ := seasonInserts_mem_path roi collections szn1 sf1 b hb
    rw [ha', hb']
    refine divergent_cons_ne _ _ ?_
    intro hee
    injection hee with hee
    exact hnd.1 (hee ▸ List.mem_map.mpr ⟨(szn1, sf1), hszn1, rfl⟩)

/-- C8: for every configured season and collection, `_loadImagery`
computes the pair's baseline handle (source filtered to the season's
date range, filtered to the region bounds, clipped to the region)
exactly once and starts every flattened entry of the pair from that same
baseline, applies the entry's FilterSpecs in order as a narrowing chain,
and installs the result at exactly `[season][collection] + path`,
creating intermediate dict levels as needed; an entry with an empty path
lands directly at `[season][collection]`. -/
theorem loadImagery_installs (cfg : IConfig)
    (hszn : (cfg.imagery_filters.map Prod.fst).Nodup)
    (hcoll : (cfg.image_collections.map Prod.fst).Nodup)
    (hwf : ∀ szn sf, (szn, sf) ∈ cfg.imagery_filters →
      ∀ ck g, List.lookup ck sf.groups = some g →
        wfFDict g = true ∧ fdepth g ≤ 10) :
    ∀ szn sf, (szn, sf) ∈ cfg.imagery_filters →
    ∀ ck src, (ck, src) ∈ cfg.image_collections →
    ∀ e ∈ flattenedFor sf ck,
    lookupPath (loadImagery cfg) (some szn :: some ck :: e.nested_keys) =
      some (.coll (applyFilters
        (baseline src cfg.ee_roi sf.date_start sf.date_end) e.filters)) := by
  intro szn sf hsf ck src hck e he
  unfold loadImagery
  apply lookupPath_foldl_insert
  · rw [List.mem_flatMap]
    refine ⟨(szn, sf), hsf, ?_⟩
    unfold seasonInserts
    rw [List.mem_flatMap]
    exact ⟨(ck, src), hck, List.mem_map.mpr ⟨e, he, rfl⟩⟩
  · simp
  · exact allInserts_pairwise cfg.ee_roi cfg.image_collections hcoll
      cfg.imagery_filters hszn hwf

/-- Python dict lookup on a cons cell, for string-keyed dicts. -/
theorem lookup_cons_str {β : Type} (k k0 : String) (v0 : β) (rest : List (String × β)) :
    List.lookup k ((k0, v0) :: rest) = if k = k0 then some v0 else List.lookup k rest := by
  by_cases h : k = k0
  · simp [List.lookup, h]
  · have hb : (k == k0) = false := by simpa using h
    simp [List.lookup, hb, h]

/-- The witness configuration for C8: one season, one collection,
carrying the repository's `example_S1_filters` grouping. -/
def witnessCfg : IConfig :=
  ⟨"roi",
   [("S1", "COPERNICUS/S1_GRD")],
   [("2022", ⟨20211201, 20220531, [("S1", example_S1_filters)]⟩)]⟩

/-- Witness for C8: the EW/HH-HV leaf of `example_S1_filters` is
installed at `["2022"]["S1"]["EW"]["HH-HV"]` and carries the season's
baseline narrowed by its three filters in order. -/
theorem loadImagery_installs_witness :
    lookupPath (loadImagery witnessCfg)
        [some "2022", some "S1", some "EW", some "HH-HV"] =
      some (.coll (applyFilters
        (baseline "COPERNICUS/S1_GRD" "roi" 20211201 20220531)
        [⟨"listContains", ["transmitterReceiverPolarisation", "HH"]⟩,
         ⟨"listContains", ["transmitterReceiverPolarisation", "HV"]⟩,
         ⟨"eq", ["instrumentMode", "EW"]⟩])) := by
  have hwfw : ∀ szn sf, (szn, sf) ∈ witnessCfg.imagery_filters →
      ∀ ck g, List.lookup ck sf.groups = some g →
        wfFDict g = true ∧ fdepth g ≤ 10 := by
    intro szn sf hsf ck g hlk
    simp only [witnessCfg, List.mem_singleton] at hsf
    injection hsf with h1 h2
    subst h2
    rw [lookup_cons_str] at hlk
    by_cases hck : ck = "S1"
    · rw [if_pos hck] at hlk
      injection hlk with h3
      subst h3
      exact ⟨by decide, by decide⟩
    · rw [if_neg hck] at hlk
      simp [List.lookup] at hlk
  exact loadImagery_installs witnessCfg (by decide) (by decide) hwfw
    "2022" ⟨20211201, 20220531, [("S1", example_S1_filters)]⟩ (by simp [witnessCfg])
    "S1" "COPERNICUS/S1_GRD" (by simp [witnessCfg])
    ⟨[some "EW", some "HH-HV"],
     [⟨"listContains", ["transmitterReceiverPolarisation", "HH"]⟩,
      ⟨"listContains", ["transmitterReceiverPolarisation", "HV"]⟩,
      ⟨"eq", ["instrumentMode", "EW"]⟩]⟩
    (by decide)

theorem checkFilterList_ok (coll_key : String) (ee : List String) :
    ∀ fl : List FilterSpec, checkFilterList coll_key ee fl = .ok () →
      ∀ f ∈ fl, f.type ∈ ee
  | [], _, f, hf => absurd hf (by simp)
  | f0 :: rest, h, f, hf => by
    unfold checkFilterList at h
    by_cases h0 : f0.type ∈ ee
    · rw [if_pos h0] at h
      rcases List.mem_cons.mp hf with rfl | hf'
      · exact h0
      · exact checkFilterList_ok coll_key ee rest h f hf'
    · rw [if_neg h0] at h
      cases h

theorem checkFilterList_error_form (coll_key : String) (ee : List String) :
    ∀ (fl : List FilterSpec) (msg : String), checkFilterList coll_key ee fl = .error msg →
      ∃ t, t ∉ ee ∧ msg = invalidFilterMsg coll_key t
  | [], _, h => by cases h
  | f0 :: rest, msg, h => by
    unfold checkFilterList at h
    by_cases h0 : f0.type ∈ ee
    · rw [if_pos h0] at h
      exact checkFilterList_error_form coll_key ee rest msg h
    · rw [if_neg h0] at h
      injection h with h1
      exact ⟨f0.type, h0, h1.symm⟩

theorem checkEntryList_ok (coll_key : String) (ee : List String) :
    ∀ el : List FlatEntry, checkEntryList coll_key ee el = .ok () →
      ∀ e ∈ el, ∀ f ∈ e.filters, f.type ∈ ee
  | [], _, e, he => absurd he (by simp)
  | e0 :: rest, h, e, he => by
    unfold checkEntryList at h
    cases hc : checkFilterList coll_key ee e0.filters with
    | error msg => rw [hc] at h; cases h
    | ok u =>
      cases u
      rw [hc] at h
      rcases List.mem_cons.mp he with rfl | he'
      · exact checkFilterList_ok coll_key ee e.filters hc
      · exact checkEntryList_ok coll_key ee rest h e he'

theorem checkEntryList_error_form (coll_key : String) (ee : List String) :
    ∀ (el : List FlatEntry) (msg : String), checkEntryList coll_key ee el = .error msg →
      ∃ t, t ∉ ee ∧ msg = invalidFilterMsg coll_key t
  | [], _, h => by cases h
  | e0 :: rest, msg, h => by
    unfold checkEntryList at h
    cases hc : checkFilterList coll_key ee e0.filters with
    | error msg0 =>
      rw [hc] at h
      injection h with h1
      subst h1
      exact checkFilterList_error_form coll_key ee e0.filters msg0 hc
    | ok u =>
      cases u
      rw [hc] at h
      exact checkEntryList_error_form coll_key ee rest msg h

theorem checkGroups_ok (ee accepted : List String) (szn : String) :
    ∀ gs : List (String × FDict), checkGroups ee accepted szn gs = .ok () →
      ∀ ck g, (ck, g) ∈ gs →
        ∀ e ∈ flatten_nested_imagery_filters g [] 10, ∀ f ∈ e.filters, f.type ∈ ee
  | [], _, ck, g, hg => absurd hg (by simp)
  | (ck0, g0) :: rest, h, ck, g, hg => by
    unfold checkGroups at h
    by_cases hacc : ck0 ∈ accepted
    · rw [if_pos hacc] at h
      cases hc : checkEntryList ck0 ee (flatten_nested_imagery_filters g0 [] 10) with
      | error msg => rw [hc] at h; cases h
      | ok u =>
        cases u
        rw [hc] at h
        rcases List.mem_cons.mp hg with heq | hg'
        · injection heq with he1 he2
          subst he1
          subst he2
          exact checkEntryList_ok ck ee _ hc
        · exact checkGroups_ok ee accepted szn rest h ck g hg'
    · rw [if_neg hacc] at h
      cases h

theorem checkGroups_error_form (ee accepted : List String) (szn : String) :
    ∀ (gs : List (String × FDict)) (msg : String),
      (∀ ck g, (ck, g) ∈ gs → ck ∈ accepted) →
      checkGroups ee accepted szn gs = .error msg →
      ∃ ck t, t ∉ ee ∧ msg = invalidFilterMsg ck t
  | [], _, _, h => by cases h
  | (ck0, g0) :: rest, msg, hacc, h => by
    unfold checkGroups at h
    rw [if_pos (hacc ck0 g0 (by simp))] at h
    cases hc : checkEntryList ck0 ee (flatten_nested_imagery_filters g0 [] 10) with
    | error msg0 =>
      rw [hc] at h
      injection h with h1
      subst h1
      obtain ⟨t, ht, hmsg⟩ := checkEntryList_error_form ck0 ee _ msg0 hc
      exact ⟨ck0, t, ht, hmsg⟩
    | ok u =>
      cases u
      rw [hc] at h
      exact checkGroups_error_form ee accepted szn rest msg
        (fun ck g hg => hacc ck g (by simp [hg])) h

theorem checkSeasons_ok (ee accepted : List String) :
    ∀ ls : List (String × SeasonFilters), checkSeasons ee accepted ls = .ok () →
      ∀ szn sf, (szn, sf) ∈ ls → ∀ ck g, (ck, g) ∈ sf.groups →
        ∀ e ∈ flatten_nested_imagery_filters g [] 10, ∀ f ∈ e.filters, f.type ∈ ee
  | [], _, szn, sf, hsf => absurd hsf (by simp)
  | (szn0, sf0) :: rest, h, szn, sf, hsf => by
    unfold checkSeasons at h
    cases hc : checkGroups ee accepted szn0 sf0.groups with
    | error msg => rw [hc] at h; cases h
    | ok u =>
      cases u
      rw [hc] at h
      rcases List.mem_cons.mp hsf with heq | hsf'
      · injection heq with he1 he2
        subst he1
        subst he2
        exact fun ck g hg => checkGroups_ok ee accepted szn sf.groups hc ck g hg
      · exact checkSeasons_ok ee accepted rest h szn sf hsf'

theorem checkSeasons_error_form (ee accepted : List String) :
    ∀ (ls : List (String × SeasonFilters)) (msg : String),
      (∀ szn sf, (szn, sf) ∈ ls → ∀ ck g, (ck, g) ∈ sf.groups → ck ∈ accepted) →
      checkSeasons ee accepted ls = .error msg →
      ∃ ck t, t ∉ ee ∧ msg = invalidFilterMsg ck t
  | [], _, _, h => by cases h
  | (szn0, sf0) :: rest, msg, hacc, h => by
    unfold checkSeasons at h
    cases hc : checkGroups ee accepted szn0 sf0.groups with
    | error msg0 =>
      rw [hc] at h
      injection h with h1
      subst h1
      exact checkGroups_error_form ee accepted szn0 sf0.groups msg0
        (fun ck g hg => hacc szn0 sf0 (by simp) ck g hg) hc
    | ok u =>
      cases u
      rw [hc] at h
      exact checkSeasons_error_form ee accepted rest msg
        (fun szn sf hsf => hacc szn sf (by simp [hsf])) h

/-- C7 (corrected): a configuration whose flattened entries contain a
FilterSpec with an unrecognized type makes session construction fail at
load time — before the ImageryTree is built, so no partially-built tree
is produced — with an error naming the offending collection and filter
type (the season is not part of the message).  (`hacc` rules out the
earlier unrecognized-collection-key error; a FilterSpec buried deeper
than the flattening depth limit is not validated, see the
counterexample.) -/
theorem initInterface_invalid_filter (eeFilterTypes : List String) (cfg : IConfig)
    (hacc : ∀ szn sf, (szn, sf) ∈ cfg.imagery_filters → ∀ ck g, (ck, g) ∈ sf.groups →
      ck ∈ cfg.image_collections.map Prod.fst)
    (hbad : ∃ szn sf ck g e f, (szn, sf) ∈ cfg.imagery_filters ∧ (ck, g) ∈ sf.groups ∧
      e ∈ flatten_nested_imagery_filters g [] 10 ∧ f ∈ e.filters ∧
      f.type ∉ eeFilterTypes) :
    ∃ ck t, t ∉ eeFilterTypes ∧
      initInterface eeFilterTypes cfg = .error (invalidFilterMsg ck t) := by
  obtain ⟨szn, sf, ck, g, e, f, hsf, hg, he, hf, ht⟩ := hbad
  cases hc : checkSeasons eeFilterTypes (cfg.image_collections.map Prod.fst)
      cfg.imagery_filters with
  | ok u =>
    cases u
    exact absurd (checkSeasons_ok _ _ _ hc szn sf hsf ck g hg e he f hf) ht
  | error msg =>
    obtain ⟨ck', t, ht', hmsg⟩ := checkSeasons_error_form _ _ _ msg hacc hc
    subst hmsg
    refine ⟨ck', t, ht', ?_⟩
    unfold initInterface
    rw [hc]

/-- Substring test on character lists, used to state what an error
message does not mention. -/
def listHasInfix (pat : List Char) : List Char → Bool
  | [] => isStartOf pat []
  | c :: rest => isStartOf pat (c :: rest) || listHasInfix pat rest

/-- Does `s` contain `pat` as a substring? -/
def strContainsSub (s pat : String) : Bool := listHasInfix pat.toList s.toList

/-- A configuration with an invalid filter type `bogus` for collection
`S1` in season `2022`, at a reachable leaf. -/
def badTypeCfg : IConfig :=
  ⟨"roi", [("S1", "COPERNICUS/S1_GRD")],
   [("2022", ⟨20211201, 20220531, [("S1", .node [] (some [⟨"bogus", []⟩]))]⟩)]⟩

/-- A chain of `n` nested group levels ending in the same invalid
filter. -/
def deepCfgAux : Nat → FDict
  | 0 => .node [] (some [⟨"bogus", []⟩])
  | n + 1 => .node [("g", deepCfgAux n)] none

/-- The invalid filter nested twelve levels deep — beyond the default
flattening depth limit of ten. -/
def deepBadTypeCfg : IConfig :=
  ⟨"roi", [("S1", "COPERNICUS/S1_GRD")],
   [("2022", ⟨20211201, 20220531, [("S1", deepCfgAux 12)]⟩)]⟩

/-- Counterexample to C7 as stated: construction does fail for a
reachable invalid FilterSpec, but the error message names only the
collection and the filter type — the season `2022` appears nowhere in
it; and a configuration containing an invalid FilterSpec below the
flattening depth limit is not detected at all: construction succeeds. -/
theorem initInterface_counterexample :
    initInterface ["eq", "listContains"] badTypeCfg =
      .error "Invalid filter type provided for S1: bogus" ∧
    strContainsSub "Invalid filter type provided for S1: bogus" "2022" = false ∧
    (initInterface ["eq", "listContains"] deepBadTypeCfg).isOk = true :=
  ⟨rfl, by decide, rfl⟩

/-- Witness for C7 at `badTypeCfg`: the unrecognized type `bogus` under
collection `S1` fails construction with the collection-and-type
message. -/
theorem initInterface_invalid_filter_witness :
    ∃ ck t, t ∉ ["eq", "listContains"] ∧
      initInterface ["eq", "listContains"] badTypeCfg = .error (invalidFilterMsg ck t) :=
  initInterface_invalid_filter ["eq", "listContains"] badTypeCfg
    (by
      intro szn sf hsf ck g hg
      simp only [badTypeCfg, List.mem_singleton] at hsf
      injection hsf with h1 h2
      subst h2
      simp only [List.mem_singleton] at hg
      injection hg with h3 h4
      subst h3
      simp [badTypeCfg])
    ⟨"2022", ⟨20211201, 20220531, [("S1", .node [] (some [⟨"bogus", []⟩]))]⟩,
     "S1", .node [] (some [⟨"bogus", []⟩]),
     ⟨[], [⟨"bogus", []⟩]⟩, ⟨"bogus", []⟩,
     List.mem_singleton.mpr rfl, List.mem_singleton.mpr rfl,
     List.mem_singleton.mpr rfl, List.mem_singleton.mpr rfl, by decide⟩

/-! ## Claim C9: retrieval never mutates the canonical tree -/

/-- A Python object of the imagery tree, for the frame property of
`getImagery`: a dict maps keys to object ids in a heap, a leaf holds an
opaque collection payload `α`.  The payload type and the leaf transform
are parameters: the frame property holds for every combination of
processing operations. -/
inductive HNode (α : Type) where
  | coll : α → HNode α
  | dict : List (String × Nat) → HNode α
  deriving DecidableEq

/-- The object heap: an id-indexed store plus the next fresh id. -/
structure Heap (α : Type) where
  mem : List (Nat × HNode α)
  next : Nat
  deriving DecidableEq

/-- Read the object with a given id. -/
def lookupH {α : Type} (h : Heap α) (i : Nat) : Option (HNode α) := List.lookup i h.mem

/-- Overwrite an existing binding in place (append if absent). -/
def setKeyH {α : Type} : List (Nat × HNode α) → Nat → HNode α → List (Nat × HNode α)
  | [], i, n => [(i, n)]
  | (i0, n0) :: rest, i, n =>
    if i0 = i then (i0, n) :: rest else (i0, n0) :: setKeyH rest i n

/-- Mutate the object at id `i`. -/
def setH {α : Type} (h : Heap α) (i : Nat) (n : HNode α) : Heap α :=
  ⟨setKeyH h.mem i n, h.next⟩

/-- Allocate a fresh object and return its id. -/
def allocH {α : Type} (h : Heap α) (n : HNode α) : Heap α × Nat :=
  (⟨(h.next, n) :: h.mem, h.next + 1⟩, h.next)

/-- The ids an object points to. -/
def childIds {α : Type} : HNode α → List Nat
  | .coll _ => []
  | .dict es => es.map Prod.snd

/-- Thread a heap-transforming child operation left to right over the
children of a dict, collecting the resulting child ids. -/
def mapChildrenH {α : Type} (op : Heap α → Nat → Option (Heap α × Nat)) :
    Heap α → List (String × Nat) → Option (Heap α × List (String × Nat))
  | h, [] => some (h, [])
  | h, (k, cid) :: rest =>
    match op h cid with
    | none => none
    | some (h2, nid) =>
      match mapChildrenH op h2 rest with
      | none => none
      | some (h3, rest2) => some (h3, (k, nid) :: rest2)

/-- `copy.deepcopy` of the subtree rooted at `i`: every reached object
is re-allocated at a fresh id; the original entries are left alone.
`fuel` bounds the recursion depth (the canonical tree is finite and
acyclic, so a large enough fuel always exists). -/
def deepcopyH {α : Type} : Nat → Heap α → Nat → Option (Heap α × Nat)
  | 0, _, _ => none
  | fuel + 1, h, i =>
    match lookupH h i with
    | none => none
    | some (.coll a) => some (allocH h (.coll a))
    | some (.dict es) =>
      match mapChildrenH (fun h' j => deepcopyH fuel h' j) h es with
      | none => none
      | some (h2, es2) => some (allocH h2 (.dict es2))

/-- The heap-level `apply_processing`: a leaf collection is replaced by
a fresh processed object (`ptr = ptr.filter(...)` and friends build new
server-side handles), a dict is mutated in place, each child entry
re-pointed at its processed result, and its own id returned. -/
def applyProcMutH {α : Type} (f : α → α) : Nat → Heap α → Nat → Option (Heap α × Nat)
  | 0, _, _ => none
  | fuel + 1, h, i =>
    match lookupH h i with
    | none => none
    | some (.coll a) => some (allocH h (.coll (f a)))
    | some (.dict es) =>
      match mapChildrenH (fun h' j => applyProcMutH f fuel h' j) h es with
      | none => none
      | some (h2, es2) => some (setH h2 i (.dict es2), i)

/-- The nested-key descent on the heap (reads only): a missing key at a
dict keeps the pointer (warn), reaching anything else with keys left is
the uncaught `TypeError`. -/
def descendH {α : Type} (h : Heap α) : List String → Nat → Option Nat
  | [], i => some i
  | k :: ks, i =>
    match lookupH h i with
    | some (.dict es) =>
      match List.lookup k es with
      | some cid => descendH h ks cid
      | none => descendH h ks i
    | _ => none

/-- `x[k]` for the two top dict levels `imagery[season][collection]`. -/
def heapGetChild {α : Type} (h : Heap α) (i : Nat) (k : String) : Option Nat :=
  match lookupH h i with
  | some (.dict es) => List.lookup k es
  | _ => none

/-- The heap-level skeleton of a `getImagery` call with processing:
index the canonical tree at `[season][collection]` (reads), take a deep
copy of that subtree, descend the requested nested keys on the copy, and
run the processing recursion on the reached node.  Returns the final
heap and the result's id. -/
def getImageryFrame {α : Type} (f : α → α) (fuel : Nat) (h : Heap α) (root : Nat)
    (season collection : String) (nested_keys : List String) :
    Option (Heap α × Nat) :=
  match heapGetChild h root season with
  | none => none
  | some i1 =>
    match heapGetChild h i1 collection with
    | none => none
    | some i2 =>
      match deepcopyH fuel h i2 with
      | none => none
      | some (h2, copyId) =>
        match descendH h2 nested_keys copyId with
        | none => none
        | some target => applyProcMutH f fuel h2 target

/-- A value snapshot of the subtree rooted at an id. -/
inductive HTree (α : Type) where
  | coll : α → HTree α
  | dict : List (String × HTree α) → HTree α

/-- Snapshot the children of a dict with a given reader. -/
def readChildrenH {α : Type} (rd : Nat → Option (HTree α)) :
    List (String × Nat) → Option (List (String × HTree α))
  | [] => some []
  | (k, cid) :: rest =>
    match rd cid with
    | none => none
    | some t =>
      match readChildrenH rd rest with
      | none => none
      | some r2 => some ((k, t) :: r2)

/-- Snapshot the subtree rooted at `i` (pure reads). -/
def readTreeH {α : Type} : Nat → Heap α → Nat → Option (HTree α)
  | 0, _, _ => none
  | fuel + 1, h, i =>
    match lookupH h i with
    | none => none
    | some (.coll a) => some (.coll a)
    | some (.dict es) =>
      match readChildrenH (fun j => readTreeH fuel h j) es with
      | none => none
      | some cs => some (.dict cs)

/-- Heap well-formedness: every stored id and every pointed-to id is
below `next`.  The canonical heaps built at construction satisfy this by
construction. -/
def heapWF {α : Type} (h : Heap α) : Bool :=
  h.mem.all fun p =>
    decide (p.1 < h.next) && (childIds p.2).all fun c => decide (c < h.next)

/-- Objects at ids at or above `lo` point only at or above `lo` (the
freshly copied zone is closed). -/
def closedFrom {α : Type} (h : Heap α) (lo : Nat) : Prop :=
  ∀ i n, lo ≤ i → lookupH h i = some n → ∀ c ∈ childIds n, lo ≤ c

theorem lookup_cons_nat {β : Type} (k k0 : Nat) (v0 : β) (rest : List (Nat × β)) :
    List.lookup k ((k0, v0) :: rest) = if k = k0 then some v0 else List.lookup k rest := by
  by_cases h : k = k0
  · simp [List.lookup, h]
  · have hb : (k == k0) = false := by simpa using h
    simp [List.lookup, hb, h]

theorem lookup_mem_nat {β : Type} :
    ∀ {l : List (Nat × β)} {k : Nat} {v : β}, List.lookup k l = some v → (k, v) ∈ l
  | [], _, _, h => by cases h
  | (k0, v0) :: rest, k, v, h => by
    rw [lookup_cons_nat] at h
    by_cases hk : k = k0
    · rw [if_pos hk] at h
      injection h with h1
      subst hk
      subst h1
      exact List.mem_cons_self _ _
    · rw [if_neg hk] at h
      exact List.mem_cons_of_mem _ (lookup_mem_nat h)

theorem lookup_setKeyH_self {α : Type} :
    ∀ (es : List (Nat × HNode α)) (i : Nat) (n : HNode α),
    List.lookup i (setKeyH es i n) = some n
  | [], i, n => by simp [setKeyH, lookup_cons_nat]
  | (i0, n0) :: rest, i, n => by
    by_cases h : i0 = i
    · simp [setKeyH, h, lookup_cons_nat]
    · simp [setKeyH, h, lookup_cons_nat, Ne.symm h, lookup_setKeyH_self rest i n]

theorem lookup_setKeyH_ne {α : Type} :
    ∀ (es : List (Nat × HNode α)) (i j : Nat) (n : HNode α), i ≠ j →
    List.lookup j (setKeyH es i n) = List.lookup j es
  | [], i, j, n, h => by
    simp [setKeyH, lookup_cons_nat, Ne.symm h]
  | (i0, n0) :: rest, i, j, n, h => by
    by_cases h0 : i0 = i
    · subst h0
      simp [setKeyH, lookup_cons_nat, Ne.symm h]
    · simp only [setKeyH, if_neg h0, lookup_cons_nat]
      by_cases hj : j = i0
      · simp [hj]
      · simp [hj, lookup_setKeyH_ne rest i j n h]

theorem lookupH_allocH {α : Type} (h : Heap α) (n : HNode α) (j : Nat) :
    lookupH (allocH h n).1 j = if j = h.next then some n else lookupH h j := by
  unfold allocH lookupH
  exact lookup_cons_nat j h.next n h.mem

theorem lookupH_setH_self {α : Type} (h : Heap α) (i : Nat) (n : HNode α) :
    lookupH (setH h i n) i = some n := by
  unfold setH lookupH
  exact lookup_setKeyH_self h.mem i n

theorem lookupH_setH_ne {α : Type} (h : Heap α) (i j : Nat) (n : HNode α) (hij : i ≠ j) :
    lookupH (setH h i n) j = lookupH h j := by
  unfold setH lookupH
  exact lookup_setKeyH_ne h.mem i j n hij

theorem closedFrom_allocH {α : Type} (h : Heap α) (n : HNode α) (lo : Nat)
    (hcf : closedFrom h lo) (hn : ∀ c ∈ childIds n, lo ≤ c) :
    closedFrom (allocH h n).1 lo := by
  intro j node hj hl
  rw [lookupH_allocH] at hl
  by_cases hje : j = h.next
  · rw [if_pos hje] at hl
    injection hl with hl
    subst hl
    exact hn
  · rw [if_neg hje] at hl
    exact hcf j node hj hl

theorem closedFrom_setH {α : Type} (h : Heap α) (i : Nat) (n : HNode α) (lo : Nat)
    (hcf : closedFrom h lo) (hn : ∀ c ∈ childIds n, lo ≤ c) :
    closedFrom (setH h i n) lo := by
  intro j node hj hl
  by_cases hje : i = j
  · subst hje
    rw [lookupH_setH_self] at hl
    injection hl with hl
    subst hl
    exact hn
  · rw [lookupH_setH_ne h i j n hje] at hl
    exact hcf j node hj hl

theorem lookupH_prepend {α : Type} (h : Heap α) (n : HNode α) (m j : Nat)
    (hj : j ≠ h.next) :
    lookupH ⟨(h.next, n) :: h.mem, m⟩ j = lookupH h j := by
  unfold lookupH
  rw [lookup_cons_nat, if_neg hj]

/-- Threading a child operation that allocates only at or above `lo`
and preserves everything below `lo` itself allocates only at or above
`lo` and preserves everything below `lo`; all produced child ids are at
or above `lo`. -/
theorem mapChildrenH_frame {α : Type} (lo : Nat) (pre : Nat → Prop)
    (op : Heap α → Nat → Option (Heap α × Nat))
    (hop : ∀ (h : Heap α) (i : Nat) (h2 : Heap α) (r : Nat),
      op h i = some (h2, r) → pre i → lo ≤ h.next → closedFrom h lo →
      h.next ≤ h2.next ∧ lo ≤ r ∧ (∀ j, j < lo → lookupH h2 j = lookupH h j) ∧
      closedFrom h2 lo) :
    ∀ (es : List (String × Nat)) (h h2 : Heap α) (es2 : List (String × Nat)),
    mapChildrenH op h es = some (h2, es2) →
    (∀ kc ∈ es, pre kc.2) → lo ≤ h.next → closedFrom h lo →
    h.next ≤ h2.next ∧ (∀ j, j < lo → lookupH h2 j = lookupH h j) ∧
    closedFrom h2 lo ∧ ∀ kc ∈ es2, lo ≤ kc.2
  | [], h, h2, es2, hrun, _, hlo, hcf => by
    unfold mapChildrenH at hrun
    injection hrun with hrun
    injection hrun with ha hb
    subst ha
    subst hb
    exact ⟨Nat.le_refl _, fun _ _ => rfl, hcf, by simp⟩
  | (k, cid) :: rest, h, h2, es2, hrun, hpre, hlo, hcf => by
    unfold mapChildrenH at hrun
    cases ho : op h cid with
    | none => rw [ho] at hrun; cases hrun
    | some pr1 =>
      obtain ⟨h1, nid⟩ := pr1
      rw [ho] at hrun
      dsimp only at hrun
      cases hmc : mapChildrenH op h1 rest with
      | none => rw [hmc] at hrun; cases hrun
      | some pr2 =>
        obtain ⟨h3, rest2⟩ := pr2
        rw [hmc] at hrun
        injection hrun with hrun
        injection hrun with ha hb
        subst ha
        subst hb
        obtain ⟨hn1, hr1, hp1, hc1⟩ :=
          hop h cid h1 nid ho (hpre (k, cid) (by simp)) hlo hcf
        obtain ⟨hn2, hp2, hc2, hids⟩ :=
          mapChildrenH_frame lo pre op hop rest h1 h3 rest2 hmc
            (fun kc hkc => hpre kc (by simp [hkc])) (Nat.le_trans hlo hn1) hc1
        refine ⟨Nat.le_trans hn1 hn2, ?_, hc2, ?_⟩
        · intro j hj
          rw [hp2 j hj, hp1 j hj]
        · intro kc hkc
          rcases List.mem_cons.mp hkc with rfl | hkc'
          · exact hr1
          · exact hids kc hkc'

/-- `deepcopy` allocates only fresh objects: every id below `lo` keeps
its binding, the returned root is at or above `lo`, and the copied zone
is closed at or above `lo`. -/
theorem deepcopyH_frame {α : Type} (lo : Nat) :
    ∀ (fuel : Nat) (h : Heap α) (i : Nat) (h2 : Heap α) (r : Nat),
    deepcopyH fuel h i = some (h2, r) → lo ≤ h.next → closedFrom h lo →
    h.next ≤ h2.next ∧ lo ≤ r ∧ (∀ j, j < lo → lookupH h2 j = lookupH h j) ∧
    closedFrom h2 lo
  | 0, _, _, _, _, hrun, _, _ => by cases hrun
  | fuel + 1, h, i, h2, r, hrun, hlo, hcf => by
    unfold deepcopyH at hrun
    cases hl : lookupH h i with
    | none => rw [hl] at hrun; cases hrun
    | some node =>
      rw [hl] at hrun
      cases node with
      | coll a =>
        dsimp only at hrun
        injection hrun with hrun
        injection hrun with ha hb
        subst ha
        subst hb
        refine ⟨Nat.le_succ _, hlo, ?_, ?_⟩
        · intro j hj
          exact lookupH_prepend h _ _ j (by omega)
        · exact closedFrom_allocH h _ lo hcf (by simp [childIds])
      | dict es =>
        dsimp only at hrun
        cases hmc : mapChildrenH (fun h' j => deepcopyH fuel h' j) h es with
        | none => rw [hmc] at hrun; cases hrun
        | some pr =>
          obtain ⟨h1, es2⟩ := pr
          rw [hmc] at hrun
          injection hrun with hrun
          injection hrun with ha hb
          subst ha
          subst hb
          obtain ⟨hn1, hp1, hc1, hids⟩ :=
            mapChildrenH_frame lo (fun _ => True) _
              (fun h' i' h2' r' hrun' _ hlo' hcf' =>
                deepcopyH_frame lo fuel h' i' h2' r' hrun' hlo' hcf')
              es h h1 es2 hmc (fun _ _ => trivial) hlo hcf
          refine ⟨by simp [allocH]; omega, Nat.le_trans hlo hn1, ?_, ?_⟩
          · intro j hj
            rw [lookupH_prepend h1 _ _ j (by omega), hp1 j hj]
          · refine closedFrom_allocH h1 _ lo hc1 ?_
            simp only [childIds, List.mem_map]
            rintro c ⟨kc, hkc, rfl⟩
            exact hids kc hkc

/-- The processing recursion touches only the zone at or above `lo`
when started inside it: every id below `lo` keeps its binding. -/
theorem applyProcMutH_frame {α : Type} (lo : Nat) (f : α → α) :
    ∀ (fuel : Nat) (h : Heap α) (i : Nat) (h2 : Heap α) (r : Nat),
    applyProcMutH f fuel h i = some (h2, r) → lo ≤ i → lo ≤ h.next → closedFrom h lo →
    h.next ≤ h2.next ∧ lo ≤ r ∧ (∀ j, j < lo → lookupH h2 j = lookupH h j) ∧
    closedFrom h2 lo
  | 0, _, _, _, _, hrun, _, _, _ => by cases hrun
  | fuel + 1, h, i, h2, r, hrun, hi, hlo, hcf => by
    unfold applyProcMutH at hrun
    cases hl : lookupH h i with
    | none => rw [hl] at hrun; cases hrun
    | some node =>
      rw [hl] at hrun
      cases node with
      | coll a =>
        dsimp only at hrun
        injection hrun with hrun
        injection hrun with ha hb
        subst ha
        subst hb
        refine ⟨Nat.le_succ _, hlo, ?_, ?_⟩
        · intro j hj
          exact lookupH_prepend h _ _ j (by omega)
        · exact closedFrom_allocH h _ lo hcf (by simp [childIds])
      | dict es =>
        dsimp only at hrun
        cases hmc : mapChildrenH (fun h' j => applyProcMutH f fuel h' j) h es with
        | none => rw [hmc] at hrun; cases hrun
        | some pr =>
          obtain ⟨h1, es2⟩ := pr
          rw [hmc] at hrun
          injection hrun with hrun
          injection hrun with ha hb
          subst ha
          subst hb
          have hkids : ∀ kc ∈ es, lo ≤ kc.2 := by
            intro kc hkc
            exact hcf i (.dict es) hi hl kc.2
              (by simp only [childIds, List.mem_map]; exact ⟨kc, hkc, rfl⟩)
          obtain ⟨hn1, hp1, hc1, hids⟩ :=
            mapChildrenH_frame lo (fun j => lo ≤ j) _
              (fun h' i' h2' r' hrun' hpre' hlo' hcf' =>
                applyProcMutH_frame lo f fuel h' i' h2' r' hrun' hpre' hlo' hcf')
              es h h1 es2 hmc hkids hlo hcf
          refine ⟨by simp [setH]; omega, hi, ?_, ?_⟩
          · intro j hj
            rw [lookupH_setH_ne h1 i j _ (by omega), hp1 j hj]
          · refine closedFrom_setH h1 i _ lo hc1 ?_
            simp only [childIds, List.mem_map]
            rintro c ⟨kc, hkc, rfl⟩
            exact hids kc hkc

theorem lookup_mem_str {β : Type} :
    ∀ {l : List (String × β)} {k : String} {v : β}, List.lookup k l = some v → (k, v) ∈ l
  | [], _, _, h => by cases h
  | (k0, v0) :: rest, k, v, h => by
    rw [lookup_cons_str] at h
    by_cases hk : k = k0
    · rw [if_pos hk] at h
      injection h with h1
      subst hk
      subst h1
      exact List.mem_cons_self _ _
    · rw [if_neg hk] at h
      exact List.mem_cons_of_mem _ (lookup_mem_str h)

/-- Descending (reads only) inside the closed zone stays inside it. -/
theorem descendH_ge {α : Type} (h : Heap α) (lo : Nat) (hcf : closedFrom h lo) :
    ∀ (ks : List String) (i r : Nat), descendH h ks i = some r → lo ≤ i → lo ≤ r
  | [], i, r, hrun, hi => by
    unfold descendH at hrun
    injection hrun with hrun
    subst hrun
    exact hi
  | k :: ks, i, r, hrun, hi => by
    unfold descendH at hrun
    cases hl : lookupH h i with
    | none => rw [hl] at hrun; cases hrun
    | some node =>
      rw [hl] at hrun
      cases node with
      | coll a => cases hrun
      | dict es =>
        dsimp only at hrun
        cases hlk : List.lookup k es with
        | none =>
          rw [hlk] at hrun
          exact descendH_ge h lo hcf ks i r hrun hi
        | some cid =>
          rw [hlk] at hrun
          refine descendH_ge h lo hcf ks cid r hrun ?_
          refine hcf i (.dict es) hi hl cid ?_
          simp only [childIds, List.mem_map]
          exact ⟨(k, cid), lookup_mem_str hlk, rfl⟩

theorem readChildrenH_congr {α : Type} (rd1 rd2 : Nat → Option (HTree α)) :
    ∀ es : List (String × Nat), (∀ kc ∈ es, rd1 kc.2 = rd2 kc.2) →
    readChildrenH rd1 es = readChildrenH rd2 es
  | [], _ => rfl
  | (k, cid) :: rest, h => by
    unfold readChildrenH
    rw [h (k, cid) (by simp),
      readChildrenH_congr rd1 rd2 rest fun kc hkc => h kc (by simp [hkc])]

/-- Two heaps agreeing below `n`, with the second closed below `n`,
yield the same snapshot from any root below `n`. -/
theorem readTreeH_agree {α : Type} (n : Nat) (h1 h2 : Heap α)
    (hagree : ∀ j, j < n → lookupH h1 j = lookupH h2 j)
    (hclosed : ∀ j node, j < n → lookupH h2 j = some node → ∀ c ∈ childIds node, c < n) :
    ∀ (fuel : Nat) (i : Nat), i < n → readTreeH fuel h1 i = readTreeH fuel h2 i
  | 0, _, _ => rfl
  | fuel + 1, i, hi => by
    unfold readTreeH
    rw [hagree i hi]
    cases hl : lookupH h2 i with
    | none => rfl
    | some node =>
      cases node with
      | coll a => rfl
      | dict es =>
        dsimp only
        rw [readChildrenH_congr (fun j => readTreeH fuel h1 j) (fun j => readTreeH fuel h2 j)
          es ?_]
        intro kc hkc
        refine readTreeH_agree n h1 h2 hagree hclosed fuel kc.2 ?_
        refine hclosed i (.dict es) hi hl kc.2 ?_
        simp only [childIds, List.mem_map]
        exact ⟨kc, hkc, rfl⟩

/-- A well-formed heap has no object at or above `next`, so the fresh
zone is vacuously closed. -/
theorem closedFrom_of_heapWF {α : Type} (h : Heap α) (hwf : heapWF h = true) :
    closedFrom h h.next := by
  intro i node hi hl
  have hm := lookup_mem_nat hl
  unfold heapWF at hwf
  rw [List.all_eq_true] at hwf
  have := hwf (i, node) hm
  simp only [Bool.and_eq_true, decide_eq_true_eq] at this
  omega

/-- In a well-formed heap every stored id is below `next` and every
pointed-to id is below `next`. -/
theorem heapWF_bounds {α : Type} (h : Heap α) (hwf : heapWF h = true)
    (i : Nat) (node : HNode α) (hl : lookupH h i = some node) :
    i < h.next ∧ ∀ c ∈ childIds node, c < h.next := by
  have hm := lookup_mem_nat hl
  unfold heapWF at hwf
  rw [List.all_eq_true] at hwf
  have hx := hwf (i, node) hm
  simp only [Bool.and_eq_true, decide_eq_true_eq, List.all_eq_true] at hx
  exact ⟨hx.1, hx.2⟩

/-- C9: a retrieval call (here with processing requested) leaves the
canonical tree untouched: every object of the pre-call heap — in
particular every dict and leaf of the canonical imagery tree — has
exactly the same binding afterwards, and the canonical subtree's
snapshot is unchanged, so repeated calls with different operations never
interfere.  The processing acts on the fresh deep copy only. -/
theorem getImagery_frame {α : Type} (f : α → α) (fuel : Nat) (h : Heap α) (root : Nat)
    (season collection : String) (nested_keys : List String) (h2 : Heap α) (rid : Nat)
    (hwf : heapWF h = true)
    (hrun : getImageryFrame f fuel h root season collection nested_keys = some (h2, rid)) :
    (∀ j, j < h.next → lookupH h2 j = lookupH h j) ∧
    (∀ fuel2, readTreeH fuel2 h2 root = readTreeH fuel2 h root) := by
  unfold getImageryFrame at hrun
  cases hg1 : heapGetChild h root season with
  | none => rw [hg1] at hrun; cases hrun
  | some i1 =>
    rw [hg1] at hrun
    dsimp only at hrun
    cases hg2 : heapGetChild h i1 collection with
    | none => rw [hg2] at hrun; cases hrun
    | some i2 =>
      rw [hg2] at hrun
      dsimp only at hrun
      cases hcp : deepcopyH fuel h i2 with
      | none => rw [hcp] at hrun; cases hrun
      | some pr =>
        obtain ⟨hc, copyId⟩ := pr
        rw [hcp] at hrun
        dsimp only at hrun
        cases hds : descendH hc nested_keys copyId with
        | none => rw [hds] at hrun; cases hrun
        | some target =>
          rw [hds] at hrun
          have hcf0 : closedFrom h h.next := closedFrom_of_heapWF h hwf
          obtain ⟨hn1, hcid, hp1, hc1⟩ :=
            deepcopyH_frame h.next fuel h i2 hc copyId hcp (Nat.le_refl _) hcf0
          have htarget : h.next ≤ target :=
            descendH_ge hc h.next hc1 nested_keys copyId target hds hcid
          obtain ⟨hn2, hrid, hp2, hc2⟩ :=
            applyProcMutH_frame h.next f fuel hc target h2 rid hrun htarget hn1 hc1
          have hpres : ∀ j, j < h.next → lookupH h2 j = lookupH h j := by
            intro j hj
            rw [hp2 j hj, hp1 j hj]
          refine ⟨hpres, ?_⟩
          intro fuel2
          have hroot : root < h.next := by
            unfold heapGetChild at hg1
            cases hl : lookupH h root with
            | none => rw [hl] at hg1; cases hg1
            | some node =>
              rw [hl] at hg1
              cases node with
              | coll a => cases hg1
              | dict es => exact (heapWF_bounds h hwf root _ hl).1
          exact readTreeH_agree h.next h2 h hpres
            (fun j node hj hl => (heapWF_bounds h hwf j node hl).2) fuel2 root hroot

/-- The canonical heap of the C9 witness: season `2022`, collection
`S1`, one group level `EW` over a leaf collection. -/
def frameHeap0 : Heap Nat :=
  ⟨[(0, .dict [("2022", 1)]), (1, .dict [("S1", 2)]), (2, .dict [("EW", 3)]),
    (3, .coll 5)], 4⟩

/-- The heap after the witness retrieval: ids 4-6 are the deep copy and
the processed leaf; the canonical objects 0-3 are bound exactly as
before. -/
def frameHeap1 : Heap Nat :=
  ⟨[(6, .coll 6), (5, .dict [("EW", 4)]), (4, .coll 5), (0, .dict [("2022", 1)]),
    (1, .dict [("S1", 2)]), (2, .dict [("EW", 3)]), (3, .coll 5)], 7⟩

/-- Witness for C9 at a concrete four-object canonical heap and the
retrieval `getImagery("S1", ["EW"], season = "2022")` with a processing
step. -/
theorem getImagery_frame_witness :
    (∀ j, j < frameHeap0.next → lookupH frameHeap1 j = lookupH frameHeap0 j) ∧
    (∀ fuel2, readTreeH fuel2 frameHeap1 0 = readTreeH fuel2 frameHeap0 0) :=
  getImagery_frame (fun a => a + 1) 10 frameHeap0 0 "2022" "S1" ["EW"] frameHeap1 6
    (by decide) (by decide)
